import Mathlib

/-!
Verification of the directory-scan / fuzzy-match engine of the repository
(the "explorer" scripts).  The embedding covers:

* `difflib.SequenceMatcher(None, a, b).ratio()` as called by
  `fuzzy_match_paths` in `src/explorer/maximized.py` (with `isjunk = None`,
  so the junk set is empty and only the autojunk "popular element" purge is
  active; the two junk-extension loops of `find_longest_match` can never run
  and are therefore omitted).  Scores are modelled as rationals: the Python
  float `2.0 * M / T` is exact whenever it is compared against the exact
  values 0 and 1 used in the claims.
* `fuzzy_match_paths` itself (lower-casing, basename extraction, cutoff
  filter, stable descending sort, Python slice `matches[:limit]`).
* `collect_file_paths` from `src/explorer/maximized.py` (directory pruning,
  invalid-root behaviour), over an abstract static filesystem tree.
* `scan` from `src/explorer/o3.py` (extension histogram, file-size list,
  directory-size rollup) and `detect_duplicates` from the same file.

Strings are modelled as `List Char`; filesystem names as `String`; paths in
the collector/scanner as component lists (`List String`), with `[]` playing
the role of the path anchor (`Path "."` for a relative scan root).
-/

abbrev Chars := List Char

/-- Result triple of `find_longest_match`: `(besti, bestj, bestsize)`. -/
structure Match3 where
  i : Nat
  j : Nat
  k : Nat
deriving DecidableEq

/-- Positions (ascending) of character `c` in `b`; this is the list
`b2j[c]` built by `SequenceMatcher.__chain_b` before the autojunk purge. -/
def charPositions (b : Chars) (c : Char) : List Nat :=
  (List.range b.length).filter (fun j => b.get? j = some c)

/-- The autojunk test of `__chain_b`: with `isjunk = None`, an element is
purged from `b2j` iff `len(b) >= 200` and it occurs more than
`len(b) // 100 + 1` times in `b`. -/
def bpopular (b : Chars) (c : Char) : Bool :=
  decide (200 ≤ b.length) && decide (b.length / 100 + 1 < b.count c)

/-- `b2j.get(c, [])` after the autojunk purge. -/
def b2j (b : Chars) (c : Char) : List Nat :=
  if bpopular b c then [] else charPositions b c

/-- The column indices visited by the inner loop of `find_longest_match`
at row `i`: `for j in b2j.get(a[i], [])`, where `if j < blo: continue` and
`if j >= bhi: break`. -/
def jsRow (a b : Chars) (blo bhi i : Nat) : List Nat :=
  match a.get? i with
  | none => []
  | some c => ((b2j b c).takeWhile (fun j => decide (j < bhi))).filter (fun j => decide (blo ≤ j))

/-- `j2len.get(j-1, 0) + 1`: the chain value computed by the inner loop of
`find_longest_match` at column `j`, where `prev` is the previous row's
`j2len` dictionary (a Python dict lookup at `-1` returns the default 0,
which the `j = 0` guard reproduces for natural-number indices). -/
def kval (prev : Nat → Nat) (j : Nat) : Nat :=
  (if j = 0 then 0 else prev (j - 1)) + 1

/-- One inner-loop step of `find_longest_match`:
`k = newj2len[j] = j2len.get(j-1, 0) + 1`, then update the best triple when
`k > bestsize`.  `prev` is the previous row's `j2len` dictionary (constant
during the row); the state carries `newj2len` and the best triple. -/
def innerStep (i : Nat) (prev : Nat → Nat) (st : (Nat → Nat) × Match3) (j : Nat) :
    (Nat → Nat) × Match3 :=
  let k := kval prev j
  (fun x => if x = j then k else st.1 x,
   if st.2.k < k then ⟨i + 1 - k, j + 1 - k, k⟩ else st.2)

/-- One outer-loop row of `find_longest_match`: fold the inner loop over the
columns of row `i`, starting from an empty `newj2len = {}`. -/
def rowStep (a b : Chars) (blo bhi : Nat) (st : (Nat → Nat) × Match3) (i : Nat) :
    (Nat → Nat) × Match3 :=
  (jsRow a b blo bhi i).foldl (innerStep i st.1) ((fun _ => 0), st.2)

/-- The main dynamic-programming loop of `find_longest_match`
(`for i in range(alo, ahi)`), returning the best junk-free triple. -/
def flmMain (a b : Chars) (alo ahi blo bhi : Nat) : Match3 :=
  ((List.range' alo (ahi - alo)).foldl (rowStep a b blo bhi) ((fun _ => 0), ⟨alo, blo, 0⟩)).2

/-- Backward extension loop of `find_longest_match` (with `isjunk = None` the
junk set is empty, so the only live condition is `a[besti-1] == b[bestj-1]`):
returns the number of extension steps. -/
def extBack (a b : Chars) (alo blo : Nat) : Nat → Nat → Nat
  | 0, _ => 0
  | i + 1, j =>
    if alo < i + 1 ∧ blo < j ∧ (a.get? i).isSome ∧ a.get? i = b.get? (j - 1) then
      extBack a b alo blo i (j - 1) + 1
    else 0

/-- Forward extension loop of `find_longest_match`, fueled by
`ahi - (i + size)`, which is exactly the maximal number of iterations the
Python `while besti+bestsize < ahi and ...` loop can make. -/
def extFwdF (a b : Chars) (ahi bhi i j : Nat) : Nat → Nat → Nat
  | 0, _ => 0
  | f + 1, size =>
    if i + size < ahi ∧ j + size < bhi ∧ (a.get? (i + size)).isSome ∧
        a.get? (i + size) = b.get? (j + size) then
      extFwdF a b ahi bhi i j f (size + 1) + 1
    else 0

/-- Number of steps of the forward extension loop. -/
def extFwd (a b : Chars) (ahi bhi i j size : Nat) : Nat :=
  extFwdF a b ahi bhi i j (ahi - (i + size)) size

/-- `find_longest_match(alo, ahi, blo, bhi)` with `isjunk = None`: the main
loop followed by the backward and forward equal-element extensions (the two
junk extensions never run since the junk set is empty). -/
def flm (a b : Chars) (alo ahi blo bhi : Nat) : Match3 :=
  let best := flmMain a b alo ahi blo bhi
  let e := extBack a b alo blo best.i best.j
  let i := best.i - e
  let j := best.j - e
  let k := best.k + e
  ⟨i, j, k + extFwd a b ahi bhi i j k⟩

/-- Total number of matched elements over all blocks found by the recursive
splitting of `get_matching_blocks` (the adjacent-block merge and the final
dummy block do not change the sum, so `ratio` only needs this total).  The
fuel bounds the recursion depth; each nested window is strictly smaller, so
`a.length + 1` fuel is always enough for the top-level call. -/
def matchTotalF (a b : Chars) : Nat → Nat → Nat → Nat → Nat → Nat
  | 0, _, _, _, _ => 0
  | fuel + 1, alo, ahi, blo, bhi =>
    let m := flm a b alo ahi blo bhi
    if m.k = 0 then 0
    else
      m.k
      + (if alo < m.i ∧ blo < m.j then matchTotalF a b fuel alo m.i blo m.j else 0)
      + (if m.i + m.k < ahi ∧ m.j + m.k < bhi then matchTotalF a b fuel (m.i + m.k) ahi (m.j + m.k) bhi else 0)

/-- `SequenceMatcher(None, a, b).ratio()`: `2 * M / T` where `M` is the total
matched-element count and `T = len(a) + len(b)`; by `_calculate_ratio`, the
ratio of two empty sequences is 1. -/
def ratio (a b : Chars) : ℚ :=
  if a.length + b.length = 0 then 1
  else 2 * (matchTotalF a b (a.length + 1) 0 a.length 0 b.length : ℚ) / ((a.length : ℚ) + b.length)

/-- The `j2len` dictionary contents after `m` rows of the main loop of
`find_longest_match` have been processed (row `m` is index `alo + m - 1`);
`chainN m j = 0` when `j` is absent.  This is the mathematical
characterization used to reason about the fold. -/
def chainN (a b : Chars) (alo blo bhi : Nat) : Nat → Nat → Nat
  | 0, _ => 0
  | m + 1, j =>
    if j ∈ jsRow a b blo bhi (alo + m) then
      kval (chainN a b alo blo bhi m) j
    else 0

/-! ### The fuzzy matcher (`fuzzy_match_paths`, src/explorer/maximized.py) -/

/-- `str.lower()` (character-wise; the claims only exercise it on strings
where Python and `Char.toLower` agree, and always on both sides equally). -/
def pyLower (s : Chars) : Chars := s.map Char.toLower

/-- `os.path.basename` (posix): the part after the rightmost `/`. -/
def basenameL (s : Chars) : Chars :=
  s.foldl (fun acc c => if c = '/' then [] else acc ++ [c]) []

/-- The similarity score computed for one candidate path:
`SequenceMatcher(None, query.lower(), os.path.basename(path).lower()).ratio()`. -/
def pathScore (query path : Chars) : ℚ :=
  ratio (pyLower query) (pyLower (basenameL path))

/-- The `matches` list built by the loop of `fuzzy_match_paths`: one
`(ratio, path)` pair per candidate whose score is `>= cutoff`, in input
order. -/
def fuzzyMatches (query : Chars) (paths : List Chars) (cutoff : ℚ) : List (ℚ × Chars) :=
  paths.filterMap (fun p =>
    let r := pathScore query p
    if cutoff ≤ r then some (r, p) else none)

/-- The comparator realizing `matches.sort(key=lambda x: x[0], reverse=True)`:
a stable sort that orders by score descending only. -/
def scoreLe (x y : ℚ × Chars) : Bool := decide (y.1 ≤ x.1)

/-- Python slice `l[:limit]` for an integer `limit`: a nonnegative limit
takes a prefix; a negative limit drops the last `|limit|` elements. -/
def pySlice {α : Type} (l : List α) (limit : Int) : List α :=
  if 0 ≤ limit then l.take limit.toNat else l.take (l.length - limit.natAbs)

/-- `fuzzy_match_paths(query, paths, cutoff, limit)` from
`src/explorer/maximized.py`. -/
def fuzzy_match_paths (query : Chars) (paths : List Chars) (cutoff : ℚ) (limit : Int) :
    List (ℚ × Chars) :=
  pySlice ((fuzzyMatches query paths cutoff).mergeSort scoreLe) limit

/-- Strict lexicographic order on `Chars` (used only by the claim-side
ordering below). -/
def charsLt : Chars → Chars → Bool
  | [], [] => false
  | [], _ :: _ => true
  | _ :: _, [] => false
  | a :: as, b :: bs => if a < b then true else if b < a then false else charsLt as bs

/-- Insert into a sorted list (insertion sort step). -/
def insertBy {α : Type} (le : α → α → Bool) (x : α) : List α → List α
  | [] => [x]
  | y :: ys => if le x y then x :: y :: ys else y :: insertBy le x ys

/-- Insertion sort (used only for the claim-side ordering below). -/
def sortBy {α : Type} (le : α → α → Bool) : List α → List α
  | [] => []
  | x :: xs => insertBy le x (sortBy le xs)

/-- The tie-breaking comparator asserted by the specification: score
descending, ties broken by shorter path length first, then by path string
ascending. -/
def claimLe (x y : ℚ × Chars) : Bool :=
  if x.1 = y.1 then
    if x.2.length = y.2.length then x.2 = y.2 || charsLt x.2 y.2
    else decide (x.2.length < y.2.length)
  else decide (y.1 < x.1)

/-- The result ordering asserted by the specification sentence behind C1
(spec-side definition, for comparison with `fuzzy_match_paths`): qualifying
records sorted by score descending with ties broken by shorter path length
first then path ascending, truncated to `limit`. -/
def fuzzy_match_claim_order (query : Chars) (paths : List Chars) (cutoff : ℚ) (limit : Int) :
    List (ℚ × Chars) :=
  (sortBy claimLe (fuzzyMatches query paths cutoff)).take limit.toNat

/-! ### The path collector (`collect_file_paths`, src/explorer/maximized.py) -/

mutual
inductive FSEntry : Type where
  | file (name : String) (size : Option Nat)
  | dir (name : String) (entries : FSDir)
inductive FSDir : Type where
  | nil
  | cons (e : FSEntry) (rest : FSDir)
end

/-- The default `exclude_dirs` list of `collect_file_paths`. -/
def defaultExcludeDirs : List String :=
  ["__pycache__", "node_modules", "venv", ".git", ".svn", ".hg", "dist", "build", "target"]

/-- `name.startswith(".")`. -/
def dotPrefixed (s : String) : Bool :=
  match s.data with
  | [] => false
  | c :: _ => c = '.'

/-- The directory-pruning test of `collect_file_paths`:
`not d.startswith(".") and d not in exclude_dirs`. -/
def keepDir (exclude : List String) (n : String) : Bool :=
  !dotPrefixed n && !(exclude.contains n)

/-- The file paths recorded while visiting one directory of the walk
(`for filename in files: collected_paths.append(os.path.join(root, filename))`;
the model has no symlinks, so the symlink branches are inert). -/
def dirFilePaths (path : List String) : FSDir → List (List String)
  | .nil => []
  | .cons (.file n _) r => (path ++ [n]) :: dirFilePaths path r
  | .cons (.dir _ _) r => dirFilePaths path r

/-- The file paths recorded below the subdirectories of a directory, after
pruning (`dirs[:] = [d for d in dirs if not d.startswith(".") and d not in exclude_dirs]`),
in `os.walk` top-down order. -/
def subPaths (exclude : List String) (path : List String) : FSDir → List (List String)
  | .nil => []
  | .cons (.file _ _) r => subPaths exclude path r
  | .cons (.dir n subs) r =>
      (if keepDir exclude n then
        dirFilePaths (path ++ [n]) subs ++ subPaths exclude (path ++ [n]) subs
      else [])
      ++ subPaths exclude path r

/-- What `collect_file_paths` hands back to its caller: the returned list and
the lines it printed to stderr. -/
structure CollectResult where
  paths : List (List String)
  stderrLines : List String
deriving DecidableEq

def invalidRootMsg : String := "Error: Provided start_path is not a valid directory."

/-- `collect_file_paths(start_path, exclude_dirs)`: `root = none` models a
`start_path` that does not exist or is not a directory
(`not os.path.isdir(abs_start_path)`), in which case the function prints a
diagnostic to stderr and returns the empty list; otherwise it walks the tree
with pruning. -/
def collect_file_paths (root : Option FSDir) (rootPath : List String)
    (exclude_dirs : Option (List String)) : CollectResult :=
  let exclude := exclude_dirs.getD defaultExcludeDirs
  match root with
  | none => ⟨[], [invalidRootMsg]⟩
  | some d => ⟨dirFilePaths rootPath d ++ subPaths exclude rootPath d, []⟩

/-! ### The scanner (`scan`, src/explorer/o3.py) -/

/-- The last index of `c` in `l`, if any (`str.rfind`). -/
def lastIdxOf (l : Chars) (c : Char) : Option Nat :=
  (List.range l.length).foldl (fun acc i => if l.get? i = some c then some i else acc) none

/-- `pathlib.PurePath.suffix` of a file name: the part from the last dot,
provided that dot is neither the first nor the last character. -/
def pySuffix (name : String) : String :=
  match lastIdxOf name.data '.' with
  | some i => if 0 < i ∧ i + 1 < name.data.length then ⟨name.data.drop i⟩ else ""
  | none => ""

/-- The extension key used by `scan`: `path.suffix.lower() or "<no‑ext>"`. -/
def extKey (fname : String) : String :=
  let s : String := ⟨pyLower (pySuffix fname).data⟩
  if s = "" then "<no‑ext>" else s

/-- The `(dirpath, fname, stat-result)` triples of the files directly inside
one directory; a `none` size models a stat call that raised
`FileNotFoundError`/`PermissionError` (the file is skipped by `scan`). -/
def dirFileRecs (path : List String) : FSDir → List (List String × String × Option Nat)
  | .nil => []
  | .cons (.file n sz) r => (path, n, sz) :: dirFileRecs path r
  | .cons (.dir _ _) r => dirFileRecs path r

/-- The file triples of all subdirectories, in `os.walk` top-down order
(`scan` applies no pruning). -/
def subFileRecs (path : List String) : FSDir → List (List String × String × Option Nat)
  | .nil => []
  | .cons (.file _ _) r => subFileRecs path r
  | .cons (.dir n subs) r =>
      (dirFileRecs (path ++ [n]) subs ++ subFileRecs (path ++ [n]) subs) ++ subFileRecs path r

/-- All file triples visited by `os.walk(root)` in order. -/
def walkFileRecs (path : List String) (d : FSDir) : List (List String × String × Option Nat) :=
  dirFileRecs path d ++ subFileRecs path d

/-- The directory paths below `path` visited by `os.walk`, in order. -/
def subDirPaths (path : List String) : FSDir → List (List String)
  | .nil => []
  | .cons (.file _ _) r => subDirPaths path r
  | .cons (.dir n subs) r => ((path ++ [n]) :: subDirPaths (path ++ [n]) subs) ++ subDirPaths path r

/-- All directory paths visited by `os.walk(root)` (the scan's result set of
directories): the root itself and every descendant directory. -/
def walkDirPaths (path : List String) (d : FSDir) : List (List String) :=
  path :: subDirPaths path d

/-- `defaultdict(int)`-style update `m[k] += v`, preserving first-insertion
order of keys. -/
def bump {κ : Type} [DecidableEq κ] : List (κ × Nat) → κ → Nat → List (κ × Nat)
  | [], k, v => [(k, v)]
  | (a, x) :: t, k, v => if a = k then (a, x + v) :: t else (a, x) :: bump t k v

/-- `defaultdict(list)`-style update `m[k].append(v)`. -/
def pushBucket {κ β : Type} [DecidableEq κ] : List (κ × List β) → κ → β → List (κ × List β)
  | [], k, v => [(k, [v])]
  | (a, xs) :: t, k, v => if a = k then (a, xs ++ [v]) :: t else (a, xs) :: pushBucket t k v

/-- Plain dict assignment `m[k] = v` (replace or append). -/
def setKey {κ β : Type} [DecidableEq κ] : List (κ × β) → κ → β → List (κ × β)
  | [], k, v => [(k, v)]
  | (a, x) :: t, k, v => if a = k then (k, v) :: t else (a, x) :: setKey t k v

/-- Association-list lookup with decidable equality. -/
def alookup {κ β : Type} [DecidableEq κ] : List (κ × β) → κ → Option β
  | [], _ => none
  | (a, x) :: t, k => if a = k then some x else alookup t k

/-- `[dp, *dp.parents]`: the directory itself and all its ancestors down to
the path anchor (`[]`, playing the role of `Path(".")`), longest first. -/
def prefixesIncl (l : List String) : List (List String) := l.inits.reverse

/-- The four accumulators built by `scan`. -/
structure ScanAcc where
  extCounter : List (String × Nat)
  extSize : List (String × Nat)
  fileSizes : List (Nat × List String)
  dirSizes : List (List String × Nat)

/-- The body of `scan`'s per-file loop: skip on stat failure, otherwise
update the extension counter, the extension byte total, the flat file list,
and propagate the size to the directory and every ancestor. -/
def fileStep (acc : ScanAcc) (t : List String × String × Option Nat) : ScanAcc :=
  match t.2.2 with
  | none => acc
  | some size =>
    let ext := extKey t.2.1
    { extCounter := bump acc.extCounter ext 1
      extSize := bump acc.extSize ext size
      fileSizes := acc.fileSizes ++ [(size, t.1 ++ [t.2.1])]
      dirSizes := (prefixesIncl t.1).foldl (fun d p => bump d p size) acc.dirSizes }

/-- `scan(root)` from src/explorer/o3.py over a static filesystem tree. -/
def o3scan (rootPath : List String) (d : FSDir) : ScanAcc :=
  (walkFileRecs rootPath d).foldl fileStep ⟨[], [], [], []⟩

/-! ### Duplicate detection (`detect_duplicates`, src/explorer/o3.py) -/

/-- The per-bucket `hashes` dictionary of `detect_duplicates`: group the
readable files of one size bucket by content digest, skipping files whose
read raises (`sha256_for_file` failure).  `hashFn` abstracts
`hashlib.sha256` (an external, deterministic digest); `readFile` is the
static filesystem's content oracle (`none` = unreadable). -/
def hashBuckets (hashFn : List Nat → List Nat) (readFile : List String → Option (List Nat))
    (paths : List (List String)) : List (List Nat × List (List String)) :=
  paths.foldl (fun hs p =>
    match readFile p with
    | none => hs
    | some c => pushBucket hs (hashFn c) p) []

/-- `detect_duplicates(file_sizes)` from src/explorer/o3.py: bucket by size,
discard buckets of size < 2, hash the remaining files, and record every hash
group with more than one member under its digest (`dupes[digest] = paths`). -/
def detect_duplicates (hashFn : List Nat → List Nat) (readFile : List String → Option (List Nat))
    (file_sizes : List (Nat × List String)) : List (List Nat × List (List String)) :=
  let size_buckets := file_sizes.foldl (fun acc t => pushBucket acc t.1 t.2) []
  size_buckets.foldl (fun dupes bucket =>
    if bucket.2.length < 2 then dupes
    else (hashBuckets hashFn readFile bucket.2).foldl
      (fun d pr => if 1 < pr.2.length then setKey d pr.1 pr.2 else d) dupes) []

/-! ## Lemmas about the `SequenceMatcher` model -/

theorem mem_charPositions {b : Chars} {c : Char} {j : Nat} :
    j ∈ charPositions b c ↔ j < b.length ∧ b.get? j = some c := by
  simp [charPositions, List.mem_filter, List.mem_range]

theorem charPositions_sorted (b : Chars) (c : Char) :
    (charPositions b c).Pairwise (· < ·) :=
  (List.pairwise_lt_range b.length).filter _

theorem b2j_sorted (b : Chars) (c : Char) : (b2j b c).Pairwise (· < ·) := by
  unfold b2j
  split
  · exact List.Pairwise.nil
  · exact charPositions_sorted b c

theorem mem_b2j {b : Chars} {c : Char} {j : Nat} :
    j ∈ b2j b c ↔ bpopular b c = false ∧ j < b.length ∧ b.get? j = some c := by
  unfold b2j
  split <;> rename_i h
  · simp [h]
  · simp [Bool.not_eq_true] at h
    simp [h, mem_charPositions]

theorem mem_takeWhile_lt {l : List Nat} (hs : l.Pairwise (· < ·)) (bhi x : Nat) :
    x ∈ l.takeWhile (fun j => decide (j < bhi)) ↔ x ∈ l ∧ x < bhi := by
  induction l with
  | nil => simp
  | cons y t ih =>
    rcases List.pairwise_cons.mp hs with ⟨hy, ht⟩
    rw [List.takeWhile_cons]
    by_cases hyb : y < bhi
    · rw [if_pos (by simpa using hyb)]
      simp only [List.mem_cons, ih ht]
      constructor
      · rintro (rfl | ⟨hxt, hxb⟩)
        · exact ⟨Or.inl rfl, hyb⟩
        · exact ⟨Or.inr hxt, hxb⟩
      · rintro ⟨rfl | hxt, hxb⟩
        · exact Or.inl rfl
        · exact Or.inr ⟨hxt, hxb⟩
    · rw [if_neg (by simpa using hyb)]
      simp only [List.not_mem_nil, false_iff, List.mem_cons, not_and]
      rintro (rfl | hxt) hxb
      · exact hyb hxb
      · exact hyb ((hy x hxt).trans hxb)

theorem mem_jsRow {a b : Chars} {blo bhi i j : Nat} :
    j ∈ jsRow a b blo bhi i ↔
      ∃ c, a.get? i = some c ∧ j ∈ b2j b c ∧ blo ≤ j ∧ j < bhi := by
  unfold jsRow
  cases hai : a.get? i with
  | none => simp
  | some c =>
    simp only [List.mem_filter, mem_takeWhile_lt (b2j_sorted b c), decide_eq_true_eq]
    constructor
    · rintro ⟨⟨hj, hlt⟩, hle⟩
      exact ⟨c, rfl, hj, hle, hlt⟩
    · rintro ⟨c2, hc2, hj, hle, hlt⟩
      cases hc2
      exact ⟨⟨hj, hlt⟩, hle⟩

theorem jsRow_sorted (a b : Chars) (blo bhi i : Nat) :
    (jsRow a b blo bhi i).Pairwise (· < ·) := by
  unfold jsRow
  cases a.get? i with
  | none => exact List.Pairwise.nil
  | some c => exact ((b2j_sorted b c).sublist (List.takeWhile_sublist _)).filter _

theorem chainN_le (a b : Chars) (alo blo bhi : Nat) :
    ∀ m j, chainN a b alo blo bhi m j ≤ m := by
  intro m
  induction m with
  | zero => intro j; simp [chainN]
  | succ m ih =>
    intro j
    unfold chainN
    split
    · unfold kval
      split
      · omega
      · have := ih (j - 1); omega
    · omega

theorem chainN_le_col (a b : Chars) (alo blo bhi : Nat) :
    ∀ m j, chainN a b alo blo bhi m j ≤ j + 1 - blo := by
  intro m
  induction m with
  | zero => intro j; simp [chainN]
  | succ m ih =>
    intro j
    unfold chainN
    split <;> rename_i hmem
    · rcases mem_jsRow.mp hmem with ⟨c, _, _, hble, _⟩
      unfold kval
      split
      · omega
      · have := ih (j - 1); omega
    · omega

theorem innerFold_dict (i : Nat) (prev : Nat → Nat) :
    ∀ (L : List Nat) (st : (Nat → Nat) × Match3) (x : Nat),
      ((L.foldl (innerStep i prev) st).1) x = if x ∈ L then kval prev x else st.1 x := by
  intro L
  induction L with
  | nil => intro st x; simp
  | cons j t ih =>
    intro st x
    rw [List.foldl_cons, ih]
    by_cases hxt : x ∈ t
    · simp [hxt]
    · by_cases hxj : x = j
      · subst hxj
        simp [hxt, innerStep]
      · simp [hxt, hxj, innerStep]

theorem innerFold_best_inv (i : Nat) (prev : Nat → Nat) (P : Match3 → Prop) :
    ∀ (L : List Nat) (st : (Nat → Nat) × Match3), P st.2 →
      (∀ bb j, j ∈ L → P bb → bb.k < kval prev j →
        P ⟨i + 1 - kval prev j, j + 1 - kval prev j, kval prev j⟩) →
      P ((L.foldl (innerStep i prev) st).2) := by
  intro L
  induction L with
  | nil => intro st h _; simpa using h
  | cons j t ih =>
    intro st h hupd
    rw [List.foldl_cons]
    apply ih
    · show P (innerStep i prev st j).2
      unfold innerStep
      dsimp only
      split <;> rename_i hlt
      · exact hupd st.2 j (List.mem_cons_self j t) h hlt
      · exact h
    · intro bb x hx hb hk
      exact hupd bb x (List.mem_cons_of_mem j hx) hb hk

theorem innerFold_best_noupd (i : Nat) (prev : Nat → Nat) :
    ∀ (L : List Nat) (st : (Nat → Nat) × Match3), (∀ j ∈ L, kval prev j ≤ st.2.k) →
      ((L.foldl (innerStep i prev) st).2) = st.2 := by
  intro L
  induction L with
  | nil => intro st _; rfl
  | cons j t ih =>
    intro st hle
    rw [List.foldl_cons]
    have hstep : (innerStep i prev st j).2 = st.2 := by
      unfold innerStep
      dsimp only
      split <;> rename_i hlt
      · exact absurd (hle j (List.mem_cons_self j t)) (by omega)
      · rfl
    rw [show innerStep i prev st j = ((innerStep i prev st j).1, st.2) by
      rw [← hstep]]
    exact ih _ (fun x hx => hle x (List.mem_cons_of_mem j hx))

theorem rowFold_dict (a b : Chars) (alo blo bhi : Nat) :
    ∀ (m : Nat) (x : Nat),
      (((List.range' alo m).foldl (rowStep a b blo bhi) ((fun _ => 0), ⟨alo, blo, 0⟩)).1) x
        = chainN a b alo blo bhi m x := by
  intro m
  induction m with
  | zero => intro x; simp [chainN]
  | succ m ih =>
    intro x
    have hconc : List.range' alo (m + 1) = List.range' alo m ++ [alo + m] := by
      simpa using @List.range'_concat 1 alo m
    rw [hconc, List.foldl_append, List.foldl_cons, List.foldl_nil]
    show ((jsRow a b blo bhi (alo + m)).foldl (innerStep (alo + m) _) _).1 x = _
    rw [innerFold_dict]
    unfold chainN
    split <;> rename_i hmem
    · unfold kval
      split
      · rfl
      · rw [ih]
    · rfl

theorem chainN_succ (a b : Chars) (alo blo bhi m j : Nat) :
    chainN a b alo blo bhi (m + 1) j =
      if j ∈ jsRow a b blo bhi (alo + m) then kval (chainN a b alo blo bhi m) j else 0 := rfl

theorem lt_length_of_get?_eq_some {s : Chars} {i : Nat} {c : Char}
    (h : s.get? i = some c) : i < s.length := by
  by_contra hcon
  rw [List.get?_eq_none.mpr (by omega)] at h
  cases h

theorem self_jsRow_mem {s : Chars} {i j : Nat}
    (h : j ∈ jsRow s s 0 s.length i) :
    i < s.length ∧ j < s.length ∧
    i ∈ jsRow s s 0 s.length i ∧ j ∈ jsRow s s 0 s.length j := by
  rcases mem_jsRow.mp h with ⟨c, hai, hjb, _, hjlt⟩
  rcases mem_b2j.mp hjb with ⟨hpop, hjlen, hjc⟩
  have hilt : i < s.length := lt_length_of_get?_eq_some hai
  refine ⟨hilt, hjlt, ?_, ?_⟩
  · exact mem_jsRow.mpr ⟨c, hai, mem_b2j.mpr ⟨hpop, hilt, hai⟩, Nat.zero_le _, hilt⟩
  · exact mem_jsRow.mpr ⟨c, hjc, hjb, Nat.zero_le _, hjlt⟩

theorem chainN_self_left (s : Chars) :
    ∀ m j, j ≤ m → chainN s s 0 0 s.length (m + 1) j ≤ chainN s s 0 0 s.length (j + 1) j := by
  intro m
  induction m with
  | zero =>
    intro j hj
    have : j = 0 := by omega
    subst this
    exact Nat.le_refl _
  | succ m ih =>
    intro j hj
    rcases Nat.lt_or_ge j (m + 1) with hlt | hge
    · rw [chainN_succ]
      split <;> rename_i hmem
      · rw [Nat.zero_add] at hmem
        have hself := self_jsRow_mem hmem
        rw [chainN_succ, Nat.zero_add, if_pos hself.2.2.2]
        unfold kval
        by_cases hj0 : j = 0
        · simp [hj0]
        · rw [if_neg hj0, if_neg hj0]
          have hrec := ih (j - 1) (by omega)
          have hrw : j - 1 + 1 = j := by omega
          rw [hrw] at hrec
          omega
      · exact Nat.zero_le _
    · have hje : j = m + 1 := by omega
      subst hje
      exact Nat.le_refl _

theorem chainN_self_right (s : Chars) :
    ∀ m j, m ≤ j → chainN s s 0 0 s.length (m + 1) j ≤ chainN s s 0 0 s.length (m + 1) m := by
  intro m
  induction m with
  | zero =>
    intro j hj
    rw [chainN_succ, chainN_succ]
    split <;> rename_i hmem
    · rw [Nat.zero_add] at hmem
      have hself := self_jsRow_mem hmem
      rw [Nat.zero_add, if_pos hself.2.2.1]
      unfold kval
      split <;> split <;> simp [chainN]
    · exact Nat.zero_le _
  | succ m ih =>
    intro j hj
    rw [chainN_succ, chainN_succ]
    split <;> rename_i hmem
    · rw [Nat.zero_add] at hmem
      have hself := self_jsRow_mem hmem
      rw [Nat.zero_add, if_pos hself.2.2.1]
      unfold kval
      have hj0 : ¬ j = 0 := by omega
      rw [if_neg hj0, if_neg (Nat.succ_ne_zero m)]
      have hrec := ih (j - 1) (by omega)
      have hrw : m + 1 - 1 = m := by omega
      rw [hrw]
      omega
    · exact Nat.zero_le _

theorem kval_eq_chainN (s : Chars) (i : Nat) (prev : Nat → Nat)
    (hprev : ∀ x, prev x = chainN s s 0 0 s.length i x) {j : Nat}
    (hmem : j ∈ jsRow s s 0 s.length i) :
    kval prev j = chainN s s 0 0 s.length (i + 1) j := by
  rw [chainN_succ, Nat.zero_add, if_pos hmem]
  unfold kval
  by_cases hj0 : j = 0
  · simp [hj0]
  · rw [if_neg hj0, if_neg hj0, hprev]

theorem rowFold_self (s : Chars) (i : Nat) (hin : i < s.length)
    (prev : Nat → Nat) (hprev : ∀ x, prev x = chainN s s 0 0 s.length i x)
    (d0 : Nat → Nat) (bb : Match3)
    (hdiag : bb.i = bb.j) (hbnd : bb.i + bb.k ≤ s.length)
    (hdom : ∀ p, p < i → chainN s s 0 0 s.length (p + 1) p ≤ bb.k) :
    ∃ bb2 : Match3, ((jsRow s s 0 s.length i).foldl (innerStep i prev) (d0, bb)).2 = bb2 ∧
      bb2.i = bb2.j ∧ bb2.i + bb2.k ≤ s.length ∧ bb.k ≤ bb2.k ∧
      ∀ p, p < i + 1 → chainN s s 0 0 s.length (p + 1) p ≤ bb2.k := by
  by_cases hii : i ∈ jsRow s s 0 s.length i
  · rcases List.append_of_mem hii with ⟨pre, post, hsplit⟩
    have hsort := jsRow_sorted s s 0 s.length i
    rw [hsplit] at hsort
    rcases List.pairwise_append.mp hsort with ⟨hpre, hpost', hcross⟩
    have hpre_lt : ∀ x ∈ pre, x < i := fun x hx => hcross x hx i (List.mem_cons_self _ _)
    have hpost_gt : ∀ y ∈ post, i < y := (List.pairwise_cons.mp hpost').1
    have hmem_of_pre : ∀ x ∈ pre, x ∈ jsRow s s 0 s.length i := by
      intro x hx
      rw [hsplit]
      exact List.mem_append_left _ hx
    have hmem_of_post : ∀ x ∈ post, x ∈ jsRow s s 0 s.length i := by
      intro x hx
      rw [hsplit]
      exact List.mem_append_right _ (List.mem_cons_of_mem _ hx)
    rw [hsplit, List.foldl_append, List.foldl_cons]
    have hpre_noupd : ((pre.foldl (innerStep i prev) (d0, bb)).2) = bb := by
      apply innerFold_best_noupd
      intro j hj
      rw [kval_eq_chainN s i prev hprev (hmem_of_pre j hj)]
      calc chainN s s 0 0 s.length (i + 1) j
          ≤ chainN s s 0 0 s.length (j + 1) j :=
            chainN_self_left s i j (Nat.le_of_lt (hpre_lt j hj))
        _ ≤ bb.k := hdom j (hpre_lt j hj)
    have hK := kval_eq_chainN s i prev hprev hii
    have hKle : kval prev i ≤ i + 1 := by
      rw [hK]
      exact chainN_le s s 0 0 s.length (i + 1) i
    have hstep2 : (innerStep i prev (pre.foldl (innerStep i prev) (d0, bb)) i).2 =
        if bb.k < kval prev i then ⟨i + 1 - kval prev i, i + 1 - kval prev i, kval prev i⟩
        else bb := by
      have hdef : (innerStep i prev (pre.foldl (innerStep i prev) (d0, bb)) i).2 =
          if (pre.foldl (innerStep i prev) (d0, bb)).2.k < kval prev i then
            ⟨i + 1 - kval prev i, i + 1 - kval prev i, kval prev i⟩
          else (pre.foldl (innerStep i prev) (d0, bb)).2 := rfl
      rw [hdef, hpre_noupd]
    have hb1 : ∃ bb1 : Match3, (innerStep i prev (pre.foldl (innerStep i prev) (d0, bb)) i).2 = bb1 ∧
        bb1.i = bb1.j ∧ bb1.i + bb1.k ≤ s.length ∧ bb.k ≤ bb1.k ∧
        chainN s s 0 0 s.length (i + 1) i ≤ bb1.k := by
      rw [hstep2]
      split <;> rename_i hcond
      · refine ⟨⟨i + 1 - kval prev i, i + 1 - kval prev i, kval prev i⟩, rfl, rfl, ?_, ?_, ?_⟩
        · show i + 1 - kval prev i + kval prev i ≤ s.length
          omega
        · show bb.k ≤ kval prev i
          omega
        · show chainN s s 0 0 s.length (i + 1) i ≤ kval prev i
          rw [hK]
      · refine ⟨bb, rfl, hdiag, hbnd, Nat.le_refl _, ?_⟩
        rw [← hK]
        omega
    rcases hb1 with ⟨bb1, hb1eq, hb1diag, hb1bnd, hb1k, hb1dom⟩
    have hpost_noupd : ((post.foldl (innerStep i prev)
        (innerStep i prev (pre.foldl (innerStep i prev) (d0, bb)) i)).2) = bb1 := by
      have := innerFold_best_noupd i prev post
        (innerStep i prev (pre.foldl (innerStep i prev) (d0, bb)) i) ?_
      · rw [this, hb1eq]
      · intro j hj
        rw [hb1eq]
        rw [kval_eq_chainN s i prev hprev (hmem_of_post j hj)]
        calc chainN s s 0 0 s.length (i + 1) j
            ≤ chainN s s 0 0 s.length (i + 1) i :=
              chainN_self_right s i j (Nat.le_of_lt (hpost_gt j hj))
          _ ≤ bb1.k := hb1dom
    refine ⟨bb1, hpost_noupd, hb1diag, hb1bnd, hb1k, ?_⟩
    intro p hp
    rcases Nat.lt_or_ge p i with h | h
    · exact Nat.le_trans (hdom p h) hb1k
    · have hpi : p = i := by omega
      subst hpi
      exact hb1dom
  · have hnp : ∀ j ∈ jsRow s s 0 s.length i, kval prev j ≤ bb.k :=
      fun j hj => absurd (self_jsRow_mem hj).2.2.1 hii
    have h2 := innerFold_best_noupd i prev _ (d0, bb) hnp
    refine ⟨bb, h2, hdiag, hbnd, Nat.le_refl _, ?_⟩
    intro p hp
    rcases Nat.lt_or_ge p i with h | h
    · exact hdom p h
    · have hpi : p = i := by omega
      subst hpi
      rw [chainN_succ, Nat.zero_add, if_neg hii]
      exact Nat.zero_le _

theorem flmMain_self_fold (s : Chars) :
    ∀ m, m ≤ s.length →
      ∃ bb : Match3,
        ((List.range' 0 m).foldl (rowStep s s 0 s.length) ((fun _ => 0), ⟨0, 0, 0⟩)).2 = bb ∧
        bb.i = bb.j ∧ bb.i + bb.k ≤ s.length ∧
        ∀ p, p < m → chainN s s 0 0 s.length (p + 1) p ≤ bb.k := by
  intro m
  induction m with
  | zero => exact fun _ => ⟨⟨0, 0, 0⟩, rfl, rfl, by simp, by omega⟩
  | succ m ih =>
    intro hm
    rcases ih (by omega) with ⟨bb, hfold, hdiag, hbnd, hdom⟩
    have hconc : List.range' 0 (m + 1) = List.range' 0 m ++ [m] := by
      simpa using @List.range'_concat 1 0 m
    rw [hconc, List.foldl_append, List.foldl_cons, List.foldl_nil]
    have hdict := rowFold_dict s s 0 0 s.length m
    rcases rowFold_self s m (by omega)
        ((List.range' 0 m).foldl (rowStep s s 0 s.length) ((fun _ => 0), ⟨0, 0, 0⟩)).1
        hdict (fun _ => 0)
        ((List.range' 0 m).foldl (rowStep s s 0 s.length) ((fun _ => 0), ⟨0, 0, 0⟩)).2
        (by rw [hfold, hdiag]) (by rw [hfold]; exact hbnd)
        (by rw [hfold]; exact hdom) with ⟨bb2, heq, h1, h2, h3, h4⟩
    exact ⟨bb2, heq, h1, h2, h4⟩

theorem flmMain_self (s : Chars) :
    ∃ bb : Match3, flmMain s s 0 s.length 0 s.length = bb ∧
      bb.i = bb.j ∧ bb.i + bb.k ≤ s.length := by
  rcases flmMain_self_fold s s.length (Nat.le_refl _) with ⟨bb, hfold, hdiag, hbnd, _⟩
  refine ⟨bb, ?_, hdiag, hbnd⟩
  unfold flmMain
  rw [Nat.sub_zero]
  exact hfold

theorem get?_isSome_of_lt {s : Chars} {i : Nat} (h : i < s.length) : (s.get? i).isSome := by
  rw [List.get?_eq_get h]
  rfl

theorem extBack_self (s : Chars) : ∀ d, d ≤ s.length → extBack s s 0 0 d d = d := by
  intro d
  induction d with
  | zero => intro _; rfl
  | succ d ih =>
    intro hd
    show extBack s s 0 0 (d + 1) (d + 1) = d + 1
    unfold extBack
    rw [if_pos ⟨Nat.succ_pos d, Nat.succ_pos d, get?_isSome_of_lt (by omega), by
      rw [Nat.add_sub_cancel]⟩]
    rw [Nat.add_sub_cancel, ih (by omega)]

theorem extFwdF_self (s : Chars) : ∀ f sz, f + sz = s.length →
    extFwdF s s s.length s.length 0 0 f sz = f := by
  intro f
  induction f with
  | zero => intro _ _; rfl
  | succ f ih =>
    intro sz h
    unfold extFwdF
    rw [if_pos ⟨by omega, by omega, by
      rw [Nat.zero_add]
      exact get?_isSome_of_lt (by omega), rfl⟩]
    rw [ih (sz + 1) (by omega)]

theorem matchTotalF_succ (a b : Chars) (f alo ahi blo bhi : Nat) :
    matchTotalF a b (f + 1) alo ahi blo bhi =
      (let m := flm a b alo ahi blo bhi
       if m.k = 0 then 0
       else m.k
         + (if alo < m.i ∧ blo < m.j then matchTotalF a b f alo m.i blo m.j else 0)
         + (if m.i + m.k < ahi ∧ m.j + m.k < bhi then
             matchTotalF a b f (m.i + m.k) ahi (m.j + m.k) bhi else 0)) := rfl

theorem flm_self (s : Chars) : flm s s 0 s.length 0 s.length = ⟨0, 0, s.length⟩ := by
  rcases flmMain_self s with ⟨bb, hbb, hdiag, hbnd⟩
  unfold flm
  rw [hbb]
  dsimp only
  rw [← hdiag]
  have hile : bb.i ≤ s.length := by omega
  have hext : extBack s s 0 0 bb.i bb.i = bb.i := extBack_self s bb.i hile
  rw [hext, Nat.sub_self]
  have hfwd : extFwd s s s.length s.length 0 0 (bb.k + bb.i) = s.length - (bb.k + bb.i) := by
    unfold extFwd
    rw [Nat.zero_add]
    exact extFwdF_self s (s.length - (bb.k + bb.i)) (bb.k + bb.i) (by omega)
  rw [hfwd]
  have hsum : bb.k + bb.i + (s.length - (bb.k + bb.i)) = s.length := by omega
  rw [hsum]

theorem matchTotalF_self (s : Chars) (f : Nat) :
    matchTotalF s s (f + 1) 0 s.length 0 s.length = s.length := by
  rw [matchTotalF_succ, flm_self]
  dsimp only
  by_cases hn : s.length = 0
  · rw [if_pos hn, hn]
  · rw [if_neg hn, if_neg (by omega), if_neg (by omega)]
    omega

theorem ratio_self (s : Chars) : ratio s s = 1 := by
  unfold ratio
  by_cases hn : s.length + s.length = 0
  · rw [if_pos hn]
  · rw [if_neg hn, matchTotalF_self]
    have hne : ((s.length : ℚ) + s.length) ≠ 0 := by
      have h2 : ((s.length : ℚ) + s.length) = ((s.length + s.length : Nat) : ℚ) := by push_cast; ring
      rw [h2]
      exact_mod_cast hn
    rw [div_eq_one_iff_eq hne]
    ring

theorem jsRow_bnil (a : Chars) (blo bhi i : Nat) : jsRow a [] blo bhi i = [] := by
  unfold jsRow
  cases a.get? i with
  | none => rfl
  | some c =>
    have hb : b2j [] c = [] := by
      unfold b2j
      split <;> rfl
    dsimp only
    rw [hb]
    rfl

theorem rowFold_bnil (a : Chars) (blo bhi : Nat) :
    ∀ (L : List Nat) (st : (Nat → Nat) × Match3),
      ((L.foldl (rowStep a [] blo bhi) st).2) = st.2 := by
  intro L
  induction L with
  | nil => intro st; rfl
  | cons i t ih =>
    intro st
    rw [List.foldl_cons, ih]
    show ((jsRow a [] blo bhi i).foldl (innerStep i st.1) ((fun _ => 0), st.2)).2 = st.2
    rw [jsRow_bnil]
    rfl

theorem extFwdF_bnil (a : Chars) (ahi i j : Nat) :
    ∀ f sz, extFwdF a [] ahi 0 i j f sz = 0 := by
  intro f sz
  cases f with
  | zero => rfl
  | succ f =>
    unfold extFwdF
    rw [if_neg (by omega)]

theorem flm_bnil (a : Chars) (ahi : Nat) : flm a [] 0 ahi 0 0 = ⟨0, 0, 0⟩ := by
  have hmain : flmMain a [] 0 ahi 0 0 = ⟨0, 0, 0⟩ := by
    unfold flmMain
    rw [rowFold_bnil]
  unfold flm
  rw [hmain]
  dsimp only
  have hback : extBack a [] 0 0 0 0 = 0 := rfl
  rw [hback]
  unfold extFwd
  rw [extFwdF_bnil]

theorem ratio_nil_right {a : Chars} (ha : a ≠ []) : ratio a [] = 0 := by
  unfold ratio
  have hlen : a.length ≠ 0 := by
    simpa using fun h => ha (List.length_eq_zero.mp h)
  rw [if_neg (by simpa using hlen)]
  have hm : matchTotalF a [] (a.length + 1) 0 a.length 0 (([] : Chars).length) = 0 := by
    rw [matchTotalF_succ]
    dsimp only
    rw [show (([] : Chars).length) = 0 from rfl, flm_bnil]
    rfl
  rw [hm]
  simp

theorem flm_anil (b : Chars) (bhi : Nat) : flm [] b 0 0 0 bhi = ⟨0, 0, 0⟩ := rfl

theorem ratio_nil_left {b : Chars} (hb : b ≠ []) : ratio [] b = 0 := by
  unfold ratio
  have hlen : b.length ≠ 0 := by
    simpa using fun h => hb (List.length_eq_zero.mp h)
  rw [if_neg (by simpa using hlen)]
  have hm : matchTotalF [] b (([] : Chars).length + 1) 0 (([] : Chars).length) 0 b.length = 0 := by
    rw [show (([] : Chars).length) = 0 from rfl, matchTotalF_succ]
    dsimp only
    rw [flm_anil]
    rfl
  rw [hm]
  simp

theorem ratio_nil_nil : ratio [] [] = 1 := rfl

/-! ## Lemmas about the fuzzy matcher -/

theorem pathScore_of_basename_eq {q p : Chars} (h : basenameL p = q) : pathScore q p = 1 := by
  unfold pathScore
  rw [h]
  exact ratio_self _

theorem pyLower_eq_nil_iff {s : Chars} : pyLower s = [] ↔ s = [] := by
  unfold pyLower
  simp

theorem pathScore_nil_query {p : Chars} (h : basenameL p ≠ []) : pathScore [] p = 0 := by
  unfold pathScore
  have h2 : pyLower (basenameL p) ≠ [] := fun hc => h (pyLower_eq_nil_iff.mp hc)
  show ratio (pyLower []) (pyLower (basenameL p)) = 0
  exact ratio_nil_left h2

theorem pathScore_nil_basename {q p : Chars} (hq : q ≠ []) (h : basenameL p = []) :
    pathScore q p = 0 := by
  unfold pathScore
  rw [h]
  have h2 : pyLower q ≠ [] := fun hc => hq (pyLower_eq_nil_iff.mp hc)
  show ratio (pyLower q) (pyLower []) = 0
  exact ratio_nil_right h2

theorem fuzzyMatches_cons_pos {q p : Chars} {c : ℚ} (t : List Chars)
    (hc : c ≤ pathScore q p) :
    fuzzyMatches q (p :: t) c = (pathScore q p, p) :: fuzzyMatches q t c := by
  unfold fuzzyMatches
  rw [List.filterMap_cons]
  dsimp only
  rw [if_pos hc]

theorem fuzzyMatches_cons_neg {q p : Chars} {c : ℚ} (t : List Chars)
    (hc : ¬ c ≤ pathScore q p) :
    fuzzyMatches q (p :: t) c = fuzzyMatches q t c := by
  unfold fuzzyMatches
  rw [List.filterMap_cons]
  dsimp only
  rw [if_neg hc]

theorem fuzzyMatches_mapSnd_sublist (q : Chars) (c : ℚ) :
    ∀ ps : List Chars, ((fuzzyMatches q ps c).map (fun pr => pr.2)).Sublist ps := by
  intro ps
  induction ps with
  | nil => exact List.Sublist.refl []
  | cons p t ih =>
    by_cases hc : c ≤ pathScore q p
    · rw [fuzzyMatches_cons_pos t hc, List.map_cons]
      exact List.Sublist.cons₂ p ih
    · rw [fuzzyMatches_cons_neg t hc]
      exact List.Sublist.cons p ih

theorem mem_fuzzyMatches {q : Chars} {ps : List Chars} {c : ℚ} {pr : ℚ × Chars} :
    pr ∈ fuzzyMatches q ps c ↔ pr.2 ∈ ps ∧ pr.1 = pathScore q pr.2 ∧ c ≤ pr.1 := by
  unfold fuzzyMatches
  rw [List.mem_filterMap]
  constructor
  · rintro ⟨a, ha, hf⟩
    dsimp only at hf
    split at hf
    · cases hf
      exact ⟨ha, rfl, by assumption⟩
    · cases hf
  · rintro ⟨hmem, hsc, hc⟩
    refine ⟨pr.2, hmem, ?_⟩
    dsimp only
    rw [← hsc, if_pos hc]

theorem scoreLe_trans : ∀ a b c : ℚ × Chars,
    scoreLe a b = true → scoreLe b c = true → scoreLe a c = true := by
  intro a b c hab hbc
  simp only [scoreLe, decide_eq_true_eq] at *
  exact le_trans hbc hab

theorem scoreLe_total : ∀ a b : ℚ × Chars, (scoreLe a b || scoreLe b a) = true := by
  intro a b
  simp only [scoreLe, Bool.or_eq_true, decide_eq_true_eq]
  exact le_total b.1 a.1

theorem pySlice_sublist {α : Type} (l : List α) (n : Int) : (pySlice l n).Sublist l := by
  unfold pySlice
  split <;> exact List.take_sublist _ _

theorem pySlice_prefix {α : Type} (l : List α) (n : Int) : pySlice l n <+: l := by
  unfold pySlice
  split <;> exact List.take_prefix _ _

/-- C9: every `(score, path)` pair returned by `fuzzy_match_paths` has a path
drawn from the input list, each input occurrence contributes at most one
result pair, and the result is never longer than the input. -/
theorem fuzzy_match_paths_conservative (q : Chars) (ps : List Chars) (c : ℚ) (l : Int) :
    (∀ pr ∈ fuzzy_match_paths q ps c l, pr.2 ∈ ps) ∧
    (∀ p : Chars, (fuzzy_match_paths q ps c l).countP (fun pr => pr.2 = p)
      ≤ ps.countP (fun x => x = p)) ∧
    (fuzzy_match_paths q ps c l).length ≤ ps.length := by
  have hsub : (fuzzy_match_paths q ps c l).Sublist
      ((fuzzyMatches q ps c).mergeSort scoreLe) := pySlice_sublist _ _
  have hperm : ((fuzzyMatches q ps c).mergeSort scoreLe).Perm (fuzzyMatches q ps c) :=
    List.mergeSort_perm _ _
  refine ⟨?_, ?_, ?_⟩
  · intro pr hpr
    have h1 : pr ∈ fuzzyMatches q ps c := hperm.mem_iff.mp (hsub.mem hpr)
    exact (mem_fuzzyMatches.mp h1).1
  · intro p
    calc (fuzzy_match_paths q ps c l).countP (fun pr => pr.2 = p)
        ≤ ((fuzzyMatches q ps c).mergeSort scoreLe).countP (fun pr => pr.2 = p) :=
          hsub.countP_le _
      _ = (fuzzyMatches q ps c).countP (fun pr => pr.2 = p) := hperm.countP_eq _
      _ = ((fuzzyMatches q ps c).map (fun pr => pr.2)).countP (fun x => x = p) := by
          rw [List.countP_map]
          rfl
      _ ≤ ps.countP (fun x => x = p) :=
          (fuzzyMatches_mapSnd_sublist q c ps).countP_le _
  · calc (fuzzy_match_paths q ps c l).length
        ≤ ((fuzzyMatches q ps c).mergeSort scoreLe).length := hsub.length_le
      _ = (fuzzyMatches q ps c).length := hperm.length_eq
      _ ≤ ps.length := List.length_filterMap_le _ _

/-- C8: matching a non-empty query against a candidate whose basename equals
the query yields similarity score exactly 1 (the ratio of a string with
itself is 1, both strings being lower-cased identically). -/
theorem fuzzy_score_reflexive (q p : Chars) (hq : q ≠ []) (hbase : basenameL p = q) :
    pathScore q p = 1 :=
  pathScore_of_basename_eq hbase

theorem fuzzy_score_reflexive_witness :
    ("ab".data ≠ [] ∧ basenameL "x/ab".data = "ab".data) ∧
    pathScore "ab".data "x/ab".data = 1 :=
  ⟨⟨by decide, by decide⟩, fuzzy_score_reflexive "ab".data "x/ab".data (by decide) (by decide)⟩

/-- C5 counterexample: against a candidate whose basename is empty, the empty
query does not score 0 — `SequenceMatcher` assigns ratio 1 to two empty
sequences — and under cutoff 1 > 0 the empty query does produce a result. -/
theorem fuzzy_match_empty_query_cex :
    pathScore [] [] = 1 ∧ ¬ pathScore [] [] = 0 ∧
    fuzzy_match_paths [] [[]] 1 20 = [(1, [])] ∧ ¬ fuzzy_match_paths [] [[]] 1 20 = [] := by
  have hs : pathScore [] [] = 1 := rfl
  have hm : fuzzyMatches [] [[]] 1 = [(1, [])] := by
    rw [show ([[]] : List Chars) = [] :: [] from rfl, fuzzyMatches_cons_pos [] (by rw [hs])]
    rw [hs]
    rfl
  have hr : fuzzy_match_paths [] [[]] 1 20 = [(1, [])] := by
    unfold fuzzy_match_paths
    rw [hm, List.mergeSort_singleton]
    rfl
  refine ⟨hs, by rw [hs]; decide, hr, by rw [hr]; decide⟩

/-- C5 (amended): the empty query scores 0 against every candidate whose
basename is non-empty, and a non-empty query scores 0 against an empty
candidate string; when both the query and the basename are empty the score is
1 (the `difflib` convention for two empty sequences), so an empty query
produces no results under a positive cutoff provided every candidate basename
is non-empty. -/
theorem fuzzy_match_empty_query (p : Chars) (q : Chars) (ps : List Chars) (c : ℚ) (l : Int)
    (hbase : basenameL p ≠ []) (hq : q ≠ []) (hbases : ∀ x ∈ ps, basenameL x ≠ [])
    (hc : 0 < c) :
    pathScore [] p = 0 ∧ pathScore q [] = 0 ∧ pathScore [] [] = 1 ∧
    fuzzy_match_paths [] ps c l = [] := by
  refine ⟨pathScore_nil_query hbase, pathScore_nil_basename hq rfl, rfl, ?_⟩
  have hm : fuzzyMatches [] ps c = [] := by
    induction ps with
    | nil => rfl
    | cons x t ih =>
      have hx : pathScore [] x = 0 := pathScore_nil_query (hbases x (List.mem_cons_self x t))
      rw [fuzzyMatches_cons_neg t (by rw [hx]; exact not_le.mpr hc)]
      exact ih (fun y hy => hbases y (List.mem_cons_of_mem x hy))
  unfold fuzzy_match_paths
  rw [hm, List.mergeSort_nil]
  unfold pySlice
  split <;> exact List.take_nil

theorem fuzzy_match_empty_query_witness :
    (basenameL "d/x".data ≠ [] ∧ "q".data ≠ [] ∧
      (∀ x ∈ ["d/x".data], basenameL x ≠ []) ∧ (0 : ℚ) < 1) ∧
    (pathScore [] "d/x".data = 0 ∧ pathScore "q".data [] = 0 ∧ pathScore [] [] = 1 ∧
      fuzzy_match_paths [] ["d/x".data] 1 7 = []) :=
  ⟨⟨by decide, by decide, by decide, by decide⟩,
    fuzzy_match_empty_query "d/x".data "q".data ["d/x".data] 1 7
      (by decide) (by decide) (by decide) (by decide)⟩

/-- C4 counterexample: with a negative limit the matcher does not return an
empty sequence — Python's `matches[:-1]` drops only the last element — so
with two qualifying candidates and `limit = -1` one result is returned. -/
theorem fuzzy_match_negative_limit_cex :
    fuzzy_match_paths "a".data ["a".data, "b/a".data] 0 (-1) = [(1, "a".data)] ∧
    ¬ fuzzy_match_paths "a".data ["a".data, "b/a".data] 0 (-1) = [] := by
  have h1 : pathScore "a".data "a".data = 1 := pathScore_of_basename_eq (by decide)
  have h2 : pathScore "a".data "b/a".data = 1 := pathScore_of_basename_eq (by decide)
  have hm : fuzzyMatches "a".data ["a".data, "b/a".data] 0
      = [(1, "a".data), (1, "b/a".data)] := by
    rw [show (["a".data, "b/a".data] : List Chars) = "a".data :: ["b/a".data] from rfl,
      fuzzyMatches_cons_pos _ (by rw [h1]; decide), h1,
      show (["b/a".data] : List Chars) = "b/a".data :: [] from rfl,
      fuzzyMatches_cons_pos _ (by rw [h2]; decide), h2]
    rfl
  have hsorted : ([(1, "a".data), ((1 : ℚ), "b/a".data)]).Pairwise
      (fun x y => scoreLe x y = true) := by
    refine List.Pairwise.cons ?_ (List.Pairwise.cons (by simp) List.Pairwise.nil)
    intro b hb
    rw [List.mem_singleton] at hb
    subst hb
    decide
  have hr : fuzzy_match_paths "a".data ["a".data, "b/a".data] 0 (-1) = [(1, "a".data)] := by
    unfold fuzzy_match_paths
    rw [hm, List.mergeSort_of_sorted hsorted]
    decide
  exact ⟨hr, by rw [hr]; decide⟩

/-- C4 (amended): an empty candidate list or a zero limit yields an empty
result without error; a negative limit `-(n+1)` follows Python slice
semantics and returns all qualifying records except the last `n + 1` of the
sorted sequence — which is non-empty whenever more than `n + 1` candidates
clear the cutoff. -/
theorem fuzzy_match_degenerate_inputs (q : Chars) (ps : List Chars) (c : ℚ) (l : Int) :
    fuzzy_match_paths q [] c l = [] ∧
    fuzzy_match_paths q ps c 0 = [] ∧
    (∀ n : Nat, (fuzzy_match_paths q ps c (Int.negSucc n)).length
      = (fuzzyMatches q ps c).length - (n + 1)) := by
  refine ⟨?_, ?_, ?_⟩
  · show pySlice ((fuzzyMatches q [] c).mergeSort scoreLe) l = []
    rw [show fuzzyMatches q [] c = [] from rfl, List.mergeSort_nil]
    unfold pySlice
    split <;> exact List.take_nil
  · show pySlice ((fuzzyMatches q ps c).mergeSort scoreLe) 0 = []
    unfold pySlice
    rw [if_pos (by omega)]
    exact List.take_zero _
  · intro n
    show (pySlice ((fuzzyMatches q ps c).mergeSort scoreLe) (Int.negSucc n)).length = _
    unfold pySlice
    rw [if_neg (not_le.mpr (Int.negSucc_lt_zero n))]
    rw [List.length_take]
    have hlen : ((fuzzyMatches q ps c).mergeSort scoreLe).length
        = (fuzzyMatches q ps c).length := (List.mergeSort_perm _ _).length_eq
    rw [hlen]
    have hnabs : (Int.negSucc n).natAbs = n + 1 := rfl
    rw [hnabs]
    omega

/-- C1 counterexample: two candidates with equal scores (identical basenames)
are returned in input order by the code's stable sort, not in the
shorter-path-first, path-ascending tie order the claim asserts. -/
theorem fuzzy_match_tie_order_cex :
    fuzzy_match_paths "ab".data ["x/ab".data, "ab".data] 1 20
      = [(1, "x/ab".data), (1, "ab".data)] ∧
    fuzzy_match_claim_order "ab".data ["x/ab".data, "ab".data] 1 20
      = [(1, "ab".data), (1, "x/ab".data)] ∧
    ¬ fuzzy_match_paths "ab".data ["x/ab".data, "ab".data] 1 20
      = fuzzy_match_claim_order "ab".data ["x/ab".data, "ab".data] 1 20 := by
  have h1 : pathScore "ab".data "x/ab".data = 1 := pathScore_of_basename_eq (by decide)
  have h2 : pathScore "ab".data "ab".data = 1 := pathScore_of_basename_eq (by decide)
  have hm : fuzzyMatches "ab".data ["x/ab".data, "ab".data] 1
      = [(1, "x/ab".data), (1, "ab".data)] := by
    rw [show (["x/ab".data, "ab".data] : List Chars) = "x/ab".data :: ["ab".data] from rfl,
      fuzzyMatches_cons_pos _ (by rw [h1]), h1,
      show (["ab".data] : List Chars) = "ab".data :: [] from rfl,
      fuzzyMatches_cons_pos _ (by rw [h2]), h2]
    rfl
  have hsorted : ([(1, "x/ab".data), ((1 : ℚ), "ab".data)]).Pairwise
      (fun x y => scoreLe x y = true) := by
    refine List.Pairwise.cons ?_ (List.Pairwise.cons (by simp) List.Pairwise.nil)
    intro b hb
    rw [List.mem_singleton] at hb
    subst hb
    decide
  have hcode : fuzzy_match_paths "ab".data ["x/ab".data, "ab".data] 1 20
      = [(1, "x/ab".data), (1, "ab".data)] := by
    unfold fuzzy_match_paths
    rw [hm, List.mergeSort_of_sorted hsorted]
    decide
  have hspec : fuzzy_match_claim_order "ab".data ["x/ab".data, "ab".data] 1 20
      = [(1, "ab".data), (1, "x/ab".data)] := by
    unfold fuzzy_match_claim_order
    rw [hm]
    decide
  exact ⟨hcode, hspec, by rw [hcode, hspec]; decide⟩

/-- C1 (amended): for every query, candidate list, cutoff and positive limit,
`fuzzy_match_paths` returns `(score, path)` pairs for exactly the candidates
whose similarity score is at least the cutoff, sorted by score descending
with ties kept in the candidates' input order (stable sort), truncated to at
most `limit` elements; when at most `limit` candidates clear the cutoff, all
of them are returned. The final conjunct pins the truncating regime: the
output is the length-`limit` prefix of a single full sequence that is a
permutation of all the qualifying records, sorted by score descending, and
whose every score class equals that class's input-order subsequence — the
unique stable descending sort of the qualifiers. -/
theorem fuzzy_match_ranking (q : Chars) (ps : List Chars) (c : ℚ) (l : Int) (hl : 0 < l) :
    ((fuzzy_match_paths q ps c l).Pairwise (fun x y => y.1 ≤ x.1)) ∧
    (∀ pr ∈ fuzzy_match_paths q ps c l, pr.2 ∈ ps ∧ pr.1 = pathScore q pr.2 ∧ c ≤ pr.1) ∧
    (∀ p ∈ ps, c ≤ pathScore q p → (pathScore q p, p) ∈ fuzzyMatches q ps c) ∧
    ((fuzzy_match_paths q ps c l).length = min l.toNat (fuzzyMatches q ps c).length) ∧
    ((fuzzyMatches q ps c).length ≤ l.toNat →
      (fuzzy_match_paths q ps c l).Perm (fuzzyMatches q ps c)) ∧
    (∀ s : ℚ, (fuzzy_match_paths q ps c l).filter (fun pr => pr.1 = s)
      <+: (fuzzyMatches q ps c).filter (fun pr => pr.1 = s)) ∧
    (∃ full : List (ℚ × Chars),
      fuzzy_match_paths q ps c l = full.take l.toNat ∧
      full.Perm (fuzzyMatches q ps c) ∧
      full.Pairwise (fun x y => y.1 ≤ x.1) ∧
      ∀ s : ℚ, full.filter (fun pr => pr.1 = s)
        = (fuzzyMatches q ps c).filter (fun pr => pr.1 = s)) := by
  have hperm : ((fuzzyMatches q ps c).mergeSort scoreLe).Perm (fuzzyMatches q ps c) :=
    List.mergeSort_perm _ _
  have hslice : fuzzy_match_paths q ps c l
      = ((fuzzyMatches q ps c).mergeSort scoreLe).take l.toNat := by
    show pySlice _ _ = _
    unfold pySlice
    rw [if_pos (Int.le_of_lt hl)]
  have hfeq : ∀ s : ℚ, (((fuzzyMatches q ps c).mergeSort scoreLe).filter
      (fun pr => decide (pr.1 = s)))
      = (fuzzyMatches q ps c).filter (fun pr => decide (pr.1 = s)) := by
    intro s
    have hf1 : ((fuzzyMatches q ps c).filter (fun pr => decide (pr.1 = s))).Sublist
        ((fuzzyMatches q ps c).mergeSort scoreLe) := by
      apply List.sublist_mergeSort scoreLe_trans scoreLe_total
      · apply List.pairwise_of_forall_mem_list
        intro x hx y hy
        have hxs : x.1 = s := by simpa using (List.mem_filter.mp hx).2
        have hys : y.1 = s := by simpa using (List.mem_filter.mp hy).2
        show scoreLe x y = true
        unfold scoreLe
        rw [hxs, hys]
        simp
      · exact List.filter_sublist _
    have hf2 : ((fuzzyMatches q ps c).filter (fun pr => decide (pr.1 = s))).Sublist
        (((fuzzyMatches q ps c).mergeSort scoreLe).filter (fun pr => decide (pr.1 = s))) := by
      have h3 := hf1.filter (fun pr => decide (pr.1 = s))
      rwa [List.filter_filter, show (fun (a : ℚ × Chars) =>
        decide (a.1 = s) && decide (a.1 = s)) = (fun a => decide (a.1 = s)) from
          funext (fun a => Bool.and_self _)] at h3
    have hlen2 : (((fuzzyMatches q ps c).mergeSort scoreLe).filter
        (fun pr => decide (pr.1 = s))).length
        = ((fuzzyMatches q ps c).filter (fun pr => decide (pr.1 = s))).length :=
      (hperm.filter _).length_eq
    exact (hf2.eq_of_length hlen2.symm).symm
  refine ⟨?_, ?_, ?_, ?_, ?_, ?_, ?_⟩
  · rw [hslice]
    have hs := List.sorted_mergeSort scoreLe_trans scoreLe_total (fuzzyMatches q ps c)
    have hs2 := hs.sublist (List.take_sublist l.toNat _)
    exact hs2.imp (fun h => by simpa [scoreLe] using h)
  · intro pr hpr
    rw [hslice] at hpr
    have h1 : pr ∈ fuzzyMatches q ps c :=
      hperm.mem_iff.mp ((List.take_sublist _ _).mem hpr)
    rcases mem_fuzzyMatches.mp h1 with ⟨ha, hb, hc2⟩
    exact ⟨ha, hb, hc2⟩
  · intro p hp hc2
    exact mem_fuzzyMatches.mpr ⟨hp, rfl, hc2⟩
  · rw [hslice, List.length_take, hperm.length_eq]
  · intro hfits
    rw [hslice, List.take_of_length_le (by rw [hperm.length_eq]; exact hfits)]
    exact hperm
  · intro s
    rw [hslice, ← hfeq s]
    exact (List.take_prefix _ _).filter _
  · refine ⟨(fuzzyMatches q ps c).mergeSort scoreLe, hslice, hperm, ?_, hfeq⟩
    have hs := List.sorted_mergeSort scoreLe_trans scoreLe_total (fuzzyMatches q ps c)
    exact hs.imp (fun h => by simpa [scoreLe] using h)

theorem fuzzy_match_ranking_witness :
    (0 : Int) < 3 ∧
    (((fuzzy_match_paths "q".data ["q".data] 0 3).Pairwise (fun x y => y.1 ≤ x.1)) ∧
     (∀ pr ∈ fuzzy_match_paths "q".data ["q".data] 0 3,
        pr.2 ∈ ["q".data] ∧ pr.1 = pathScore "q".data pr.2 ∧ (0 : ℚ) ≤ pr.1) ∧
     (∀ p ∈ ["q".data], (0 : ℚ) ≤ pathScore "q".data p →
        (pathScore "q".data p, p) ∈ fuzzyMatches "q".data ["q".data] 0) ∧
     ((fuzzy_match_paths "q".data ["q".data] 0 3).length
        = min (Int.toNat 3) (fuzzyMatches "q".data ["q".data] 0).length) ∧
     ((fuzzyMatches "q".data ["q".data] 0).length ≤ Int.toNat 3 →
        (fuzzy_match_paths "q".data ["q".data] 0 3).Perm
          (fuzzyMatches "q".data ["q".data] 0)) ∧
     (∀ s : ℚ, (fuzzy_match_paths "q".data ["q".data] 0 3).filter (fun pr => pr.1 = s)
        <+: (fuzzyMatches "q".data ["q".data] 0).filter (fun pr => pr.1 = s)) ∧
     (∃ full : List (ℚ × Chars),
        fuzzy_match_paths "q".data ["q".data] 0 3 = full.take (Int.toNat 3) ∧
        full.Perm (fuzzyMatches "q".data ["q".data] 0) ∧
        full.Pairwise (fun x y => y.1 ≤ x.1) ∧
        ∀ s : ℚ, full.filter (fun pr => pr.1 = s)
          = (fuzzyMatches "q".data ["q".data] 0).filter (fun pr => pr.1 = s))) :=
  ⟨by decide, fuzzy_match_ranking "q".data ["q".data] 0 3 (by decide)⟩

/-! ## Lemmas about the path collector -/

theorem mem_dirFilePaths :
    ∀ (path : List String) (d : FSDir) (p : List String),
      p ∈ dirFilePaths path d → ∃ n, p = path ++ [n] := by
  intro path d
  induction d using dirFilePaths.induct path with
  | case1 => intro p hp; cases hp
  | case2 n sz r ih =>
    intro p hp
    rw [show dirFilePaths path (.cons (.file n sz) r) = (path ++ [n]) :: dirFilePaths path r
      from rfl, List.mem_cons] at hp
    rcases hp with rfl | hp
    · exact ⟨n, rfl⟩
    · exact ih p hp
  | case3 n subs r ih =>
    intro p hp
    exact ih p hp

theorem keepDir_spec {exclude : List String} {n : String} (h : keepDir exclude n = true) :
    dotPrefixed n = false ∧ n ∉ exclude := by
  unfold keepDir at h
  rcases Bool.and_eq_true_iff.mp h with ⟨h1, h2⟩
  refine ⟨by simpa using h1, ?_⟩
  rw [Bool.not_eq_true'] at h2
  simpa using h2

theorem subPaths_spec (exclude : List String) :
    ∀ (path : List String) (d : FSDir) (p : List String), p ∈ subPaths exclude path d →
      ∃ (mid : List String) (fname : String), p = path ++ mid ++ [fname] ∧
        mid ≠ [] ∧ ∀ comp ∈ mid, dotPrefixed comp = false ∧ comp ∉ exclude := by
  intro path d
  induction path, d using subPaths.induct exclude with
  | case1 path => intro p hp; cases hp
  | case2 path n sz r ih => exact ih
  | case3 path n subs r ihsub ihrest =>
    intro p hp
    rw [show subPaths exclude path (.cons (.dir n subs) r)
        = (if keepDir exclude n then
            dirFilePaths (path ++ [n]) subs ++ subPaths exclude (path ++ [n]) subs
          else []) ++ subPaths exclude path r from rfl, List.mem_append] at hp
    rcases hp with hp | hp
    · split at hp <;> rename_i hkeep
      · rcases keepDir_spec hkeep with ⟨hdot, hnotin⟩
        rw [List.mem_append] at hp
        rcases hp with hp | hp
        · rcases mem_dirFilePaths (path ++ [n]) subs p hp with ⟨f, rfl⟩
          refine ⟨[n], f, by simp, by simp, ?_⟩
          intro comp hcomp
          rw [List.mem_singleton] at hcomp
          subst hcomp
          exact ⟨hdot, hnotin⟩
        · rcases ihsub p hp with ⟨mid, f, heq, hne, hprops⟩
          refine ⟨n :: mid, f, by rw [heq]; simp, by simp, ?_⟩
          intro comp hcomp
          rw [List.mem_cons] at hcomp
          rcases hcomp with rfl | hcomp
          · exact ⟨hdot, hnotin⟩
          · exact hprops comp hcomp
      · cases hp
    · exact ihrest p hp

/-- C3 counterexample: a file named `.env` directly under the scan root is
collected — `collect_file_paths` prunes only directories, never file names —
so under default exclusion the result contains a path whose component below
the root starts with a dot. -/
theorem collect_exclusion_cex :
    (collect_file_paths (some (.cons (.file ".env" none) .nil)) ["r"] none).paths
      = [["r", ".env"]] ∧
    ¬ (∀ p ∈ (collect_file_paths (some (.cons (.file ".env" none) .nil)) ["r"] none).paths,
        ∀ comp ∈ p.drop 1, dotPrefixed comp = false ∧ comp ∉ defaultExcludeDirs) := by
  exact ⟨rfl, by decide⟩

/-- C3 (amended): every collected path extends the scan root by zero or more
intermediate directory components followed by a final file-name component,
and every intermediate directory component neither starts with a dot nor
equals a name in the exclusion list; the final file-name component itself is
not subject to either filter. -/
theorem collect_exclusion (exclude rootPath : List String) (d : FSDir) (p : List String)
    (hp : p ∈ (collect_file_paths (some d) rootPath (some exclude)).paths) :
    ∃ (mid : List String) (fname : String), p = rootPath ++ mid ++ [fname] ∧
      ∀ comp ∈ mid, dotPrefixed comp = false ∧ comp ∉ exclude := by
  have hpaths : (collect_file_paths (some d) rootPath (some exclude)).paths
      = dirFilePaths rootPath d ++ subPaths exclude rootPath d := rfl
  rw [hpaths, List.mem_append] at hp
  rcases hp with h | h
  · rcases mem_dirFilePaths rootPath d p h with ⟨n, rfl⟩
    exact ⟨[], n, by simp, by simp⟩
  · rcases subPaths_spec exclude rootPath d p h with ⟨mid, f, heq, _, hprops⟩
    exact ⟨mid, f, heq, hprops⟩

theorem collect_exclusion_witness :
    (["r", "sub", "f.txt"] ∈ (collect_file_paths
      (some (.cons (.dir "sub" (.cons (.file "f.txt" none) .nil)) .nil))
      ["r"] (some ["build"])).paths) ∧
    (∃ (mid : List String) (fname : String),
      ["r", "sub", "f.txt"] = ["r"] ++ mid ++ [fname] ∧
      ∀ comp ∈ mid, dotPrefixed comp = false ∧ comp ∉ ["build"]) :=
  ⟨by decide, collect_exclusion ["build"] ["r"]
    (.cons (.dir "sub" (.cons (.file "f.txt" none) .nil)) .nil)
    ["r", "sub", "f.txt"] (by decide)⟩

/-- C6 counterexample: an invalid scan root does not surface any error to the
caller — `collect_file_paths` returns a plain empty list, the very same value
a successful scan of an empty directory returns — so the operation does not
"fail with an InvalidRoot error". -/
theorem collect_invalid_root_cex :
    (collect_file_paths none ["r"] none).paths = [] ∧
    (collect_file_paths (some .nil) ["r"] none).paths = [] ∧
    (collect_file_paths none ["r"] none).paths
      = (collect_file_paths (some .nil) ["r"] none).paths :=
  ⟨rfl, rfl, rfl⟩

/-- C6 (amended): when the root does not exist or is not a directory,
`collect_file_paths` prints one diagnostic line to stderr and returns the
empty list without performing any traversal; the returned list carries no
error indication and is identical to the result of scanning an empty
directory. -/
theorem collect_invalid_root (rootPath : List String) (ex : Option (List String)) :
    collect_file_paths none rootPath ex = ⟨[], [invalidRootMsg]⟩ ∧
    (collect_file_paths none rootPath ex).paths
      = (collect_file_paths (some .nil) rootPath ex).paths :=
  ⟨rfl, rfl⟩

/-! ## Lemmas about the o3 scanner -/

theorem alookup_bump {κ : Type} [DecidableEq κ] :
    ∀ (l : List (κ × Nat)) (k x : κ) (v : Nat),
      alookup (bump l k v) x
        = if x = k then some ((alookup l k).getD 0 + v) else alookup l x := by
  intro l
  induction l with
  | nil =>
    intro k x v
    show (if k = x then some v else none) = if x = k then some (((none : Option Nat)).getD 0 + v) else none
    by_cases hxk : x = k
    · subst hxk
      rw [if_pos rfl, if_pos rfl]
      simp
    · rw [if_neg (Ne.symm hxk), if_neg hxk]
  | cons e t ih =>
    intro k x v
    obtain ⟨a, y⟩ := e
    by_cases hak : a = k
    · subst hak
      rw [show bump ((a, y) :: t) a v = (a, y + v) :: t from by simp [bump]]
      show (if a = x then some (y + v) else alookup t x) = _
      by_cases hxa : x = a
      · subst hxa
        rw [if_pos rfl, if_pos rfl]
        show some (y + v) = some ((alookup ((x, y) :: t) x).getD 0 + v)
        rw [show alookup ((x, y) :: t) x = some y from by simp [alookup]]
        simp
      · rw [if_neg (Ne.symm hxa), if_neg hxa]
        show alookup t x = alookup ((a, y) :: t) x
        rw [show alookup ((a, y) :: t) x = alookup t x from by simp [alookup, Ne.symm hxa]]
    · rw [show bump ((a, y) :: t) k v = (a, y) :: bump t k v from by simp [bump, hak]]
      show (if a = x then some y else alookup (bump t k v) x) = _
      rw [show alookup ((a, y) :: t) k = alookup t k from by simp [alookup, hak]]
      by_cases hxa : x = a
      · have hxk : ¬ x = k := fun h => hak (by rw [← hxa, h])
        rw [if_pos hxa.symm, if_neg hxk]
        rw [show alookup ((a, y) :: t) x = some y from by simp [alookup, hxa.symm]]
      · rw [if_neg (Ne.symm hxa), ih k x v]
        rw [show alookup ((a, y) :: t) x = alookup t x from by simp [alookup, Ne.symm hxa]]

theorem bump_sumVals {κ : Type} [DecidableEq κ] :
    ∀ (l : List (κ × Nat)) (k : κ) (v : Nat),
      ((bump l k v).map (fun e => e.2)).sum = (l.map (fun e => e.2)).sum + v := by
  intro l
  induction l with
  | nil => intro k v; simp [bump]
  | cons e t ih =>
    intro k v
    obtain ⟨a, y⟩ := e
    by_cases hak : a = k
    · subst hak
      rw [show bump ((a, y) :: t) a v = (a, y + v) :: t from by simp [bump]]
      simp
      omega
    · rw [show bump ((a, y) :: t) k v = (a, y) :: bump t k v from by simp [bump, hak]]
      simp [ih]
      omega

theorem alookup_bumpFold {v : Nat} :
    ∀ (ps : List (List String)), ps.Nodup →
      ∀ (dz : List (List String × Nat)) (x : List String),
        alookup (ps.foldl (fun d p => bump d p v) dz) x
          = if x ∈ ps then some ((alookup dz x).getD 0 + v) else alookup dz x := by
  intro ps
  induction ps with
  | nil => intro _ dz x; simp
  | cons p t ih =>
    intro hnd dz x
    rcases List.nodup_cons.mp hnd with ⟨hp, hnd'⟩
    rw [List.foldl_cons, ih hnd']
    by_cases hxt : x ∈ t
    · have hxp : ¬ x = p := fun h => hp (h ▸ hxt)
      rw [if_pos hxt, if_pos (List.mem_cons_of_mem p hxt), alookup_bump, if_neg hxp]
    · rw [if_neg hxt, alookup_bump]
      by_cases hxp : x = p
      · subst hxp
        rw [if_pos rfl, if_pos (List.mem_cons_self x t)]
      · rw [if_neg hxp, if_neg (by
          rw [List.mem_cons]
          rintro (h | h)
          · exact hxp h
          · exact hxt h)]

theorem inits_nodup {α : Type} : ∀ (l : List α), l.inits.Nodup := by
  intro l
  induction l with
  | nil => simp
  | cons a t ih =>
    rw [List.inits]
    refine List.Nodup.cons ?_ (ih.map (fun x y h => by injection h))
    simp

theorem mem_prefixesIncl {x l : List String} : x ∈ prefixesIncl l ↔ x <+: l := by
  unfold prefixesIncl
  rw [List.mem_reverse, List.mem_inits]

theorem prefixesIncl_nodup (l : List String) : (prefixesIncl l).Nodup := by
  unfold prefixesIncl
  exact List.nodup_reverse.mpr (inits_nodup l)

theorem strict_prefix_append_singleton {d dp : List String} {f : String} :
    (d <+: dp ++ [f] ∧ ¬ d = dp ++ [f]) ↔ d <+: dp := by
  constructor
  · rintro ⟨hpre, hne⟩
    have hlen : d.length ≤ dp.length := by
      have h1 := hpre.length_le
      rw [List.length_append, List.length_singleton] at h1
      rcases Nat.lt_or_ge d.length (dp.length + 1) with h | h
      · omega
      · exact absurd (hpre.eq_of_length
          (by rw [List.length_append, List.length_singleton]; omega)) hne
    rw [List.prefix_iff_eq_take] at hpre ⊢
    rwa [List.take_append_of_le_length hlen] at hpre
  · intro h
    refine ⟨h.trans (List.prefix_append dp [f]), ?_⟩
    intro hc
    have := h.length_le
    rw [hc, List.length_append] at this
    simp at this

theorem fileStep_skip (acc : ScanAcc) (dp : List String) (fn : String) :
    fileStep acc (dp, fn, none) = acc := rfl

theorem fileStep_some (acc : ScanAcc) (dp : List String) (fn : String) (size : Nat) :
    fileStep acc (dp, fn, some size) =
      { extCounter := bump acc.extCounter (extKey fn) 1
        extSize := bump acc.extSize (extKey fn) size
        fileSizes := acc.fileSizes ++ [(size, dp ++ [fn])]
        dirSizes := (prefixesIncl dp).foldl (fun d p => bump d p size) acc.dirSizes } := rfl

theorem fileStep_dirSizes (acc : ScanAcc) (t : List String × String × Option Nat)
    (hinv : ∀ dir, alookup acc.dirSizes dir =
      if acc.fileSizes.filter (fun fs => decide (dir <+: fs.2 ∧ ¬ dir = fs.2)) = [] then none
      else some (((acc.fileSizes.filter
          (fun fs => decide (dir <+: fs.2 ∧ ¬ dir = fs.2))).map (fun fs => fs.1)).sum)) :
    ∀ dir, alookup (fileStep acc t).dirSizes dir =
      if (fileStep acc t).fileSizes.filter
          (fun fs => decide (dir <+: fs.2 ∧ ¬ dir = fs.2)) = [] then none
      else some ((((fileStep acc t).fileSizes.filter
          (fun fs => decide (dir <+: fs.2 ∧ ¬ dir = fs.2))).map (fun fs => fs.1)).sum) := by
  obtain ⟨dp, fn, sz⟩ := t
  cases sz with
  | none => exact hinv
  | some size =>
    intro dir
    rw [fileStep_some]
    dsimp only
    rw [alookup_bumpFold (prefixesIncl dp) (prefixesIncl_nodup dp) acc.dirSizes dir,
      List.filter_append]
    by_cases hmem : dir ∈ prefixesIncl dp
    · rw [if_pos hmem]
      have hstrict : dir <+: dp ++ [fn] ∧ ¬ dir = dp ++ [fn] :=
        strict_prefix_append_singleton.mpr (mem_prefixesIncl.mp hmem)
      have hfilter1 : List.filter (fun fs => decide (dir <+: fs.2 ∧ ¬ dir = fs.2))
          [((size, dp ++ [fn]) : Nat × List String)] = [(size, dp ++ [fn])] := by
        simp only [List.filter]
        rw [decide_eq_true hstrict]
      rw [hfilter1, hinv dir]
      by_cases hold : acc.fileSizes.filter
          (fun fs => decide (dir <+: fs.2 ∧ ¬ dir = fs.2)) = []
      · rw [if_pos hold, hold]
        rw [if_neg (by simp)]
        simp
      · rw [if_neg hold, if_neg (fun hc => hold (List.append_eq_nil.mp hc).1)]
        rw [List.map_append, List.sum_append]
        simp
    · rw [if_neg hmem, hinv dir]
      have hnostrict : ¬ (dir <+: dp ++ [fn] ∧ ¬ dir = dp ++ [fn]) := fun hc =>
        hmem (mem_prefixesIncl.mpr (strict_prefix_append_singleton.mp hc))
      have hfilter0 : List.filter (fun fs => decide (dir <+: fs.2 ∧ ¬ dir = fs.2))
          [((size, dp ++ [fn]) : Nat × List String)] = [] := by
        simp only [List.filter]
        rw [decide_eq_false hnostrict]
      rw [hfilter0, List.append_nil]

theorem scanFold_dirSizes :
    ∀ (ts : List (List String × String × Option Nat)) (acc : ScanAcc),
      (∀ dir, alookup acc.dirSizes dir =
        if acc.fileSizes.filter (fun fs => decide (dir <+: fs.2 ∧ ¬ dir = fs.2)) = [] then none
        else some (((acc.fileSizes.filter
            (fun fs => decide (dir <+: fs.2 ∧ ¬ dir = fs.2))).map (fun fs => fs.1)).sum)) →
      ∀ dir, alookup (ts.foldl fileStep acc).dirSizes dir =
        if (ts.foldl fileStep acc).fileSizes.filter
            (fun fs => decide (dir <+: fs.2 ∧ ¬ dir = fs.2)) = [] then none
        else some ((((ts.foldl fileStep acc).fileSizes.filter
            (fun fs => decide (dir <+: fs.2 ∧ ¬ dir = fs.2))).map (fun fs => fs.1)).sum) := by
  intro ts
  induction ts with
  | nil => intro acc h; exact h
  | cons t rest ih =>
    intro acc h
    rw [List.foldl_cons]
    exact ih _ (fileStep_dirSizes acc t h)

/-- C7 (amended): the directory-size rollup of `scan` assigns to a path `p`
an entry exactly when at least one collected file lies strictly below `p`
(so ancestors of the scan root up to the path anchor receive entries, while
visited directories with no collected file below them receive none), and that
entry's value is the sum of the sizes of all collected files strictly below
`p` — i.e. all File-kind descendants at any depth. -/
theorem o3scan_dir_rollup (rootPath : List String) (d : FSDir) (dir : List String) :
    alookup (o3scan rootPath d).dirSizes dir =
      if (o3scan rootPath d).fileSizes.filter
          (fun fs => decide (dir <+: fs.2 ∧ ¬ dir = fs.2)) = [] then none
      else some ((((o3scan rootPath d).fileSizes.filter
          (fun fs => decide (dir <+: fs.2 ∧ ¬ dir = fs.2))).map (fun fs => fs.1)).sum) := by
  exact scanFold_dirSizes (walkFileRecs rootPath d) ⟨[], [], [], []⟩
    (fun dir2 => by simp [alookup]) dir

/-- C7 counterexample: rollup entries are not produced exactly for the
directories visited by the scan — the path anchor `[]` (an ancestor of the
scan root, never visited) receives an entry, while the visited empty
directory `r/e` receives none. -/
theorem o3scan_rollup_keys_cex :
    (alookup (o3scan ["r"] (.cons (.file "f" (some 3))
        (.cons (.dir "e" .nil) .nil))).dirSizes []).isSome = true ∧
    [] ∉ walkDirPaths ["r"] (.cons (.file "f" (some 3)) (.cons (.dir "e" .nil) .nil)) ∧
    alookup (o3scan ["r"] (.cons (.file "f" (some 3))
        (.cons (.dir "e" .nil) .nil))).dirSizes ["r", "e"] = none ∧
    ["r", "e"] ∈ walkDirPaths ["r"] (.cons (.file "f" (some 3)) (.cons (.dir "e" .nil) .nil)) := by
  decide

theorem fileStep_ext (acc : ScanAcc) (t : List String × String × Option Nat)
    (hsum : (acc.extCounter.map (fun e => e.2)).sum = acc.fileSizes.length)
    (hsz : ∀ e, (alookup acc.extSize e).getD 0 = ((acc.fileSizes.filter
        (fun fs => decide (extKey (fs.2.getLastD "") = e))).map (fun fs => fs.1)).sum) :
    ((fileStep acc t).extCounter.map (fun e => e.2)).sum = (fileStep acc t).fileSizes.length ∧
    ∀ e, (alookup (fileStep acc t).extSize e).getD 0 = (((fileStep acc t).fileSizes.filter
        (fun fs => decide (extKey (fs.2.getLastD "") = e))).map (fun fs => fs.1)).sum := by
  obtain ⟨dp, fn, sz⟩ := t
  cases sz with
  | none => exact ⟨hsum, hsz⟩
  | some size =>
    rw [fileStep_some]
    dsimp only
    constructor
    · rw [bump_sumVals, hsum, List.length_append]
      rfl
    · intro e
      rw [alookup_bump, List.filter_append]
      have hlast : ((dp ++ [fn] : List String)).getLastD "" = fn :=
        List.getLastD_concat _ _ _
      by_cases hext : e = extKey fn
      · subst hext
        rw [if_pos rfl]
        have hfilter1 : List.filter
            (fun fs => decide (extKey (fs.2.getLastD "") = extKey fn))
            [((size, dp ++ [fn]) : Nat × List String)] = [(size, dp ++ [fn])] := by
          simp only [List.filter]
          rw [decide_eq_true (by rw [hlast])]
        rw [hfilter1, List.map_append, List.sum_append]
        rw [show (alookup acc.extSize (extKey fn)).getD 0
            = ((acc.fileSizes.filter (fun fs =>
                decide (extKey (fs.2.getLastD "") = extKey fn))).map (fun fs => fs.1)).sum
          from hsz (extKey fn)]
        simp
      · rw [if_neg hext]
        have hfilter0 : List.filter (fun fs => decide (extKey (fs.2.getLastD "") = e))
            [((size, dp ++ [fn]) : Nat × List String)] = [] := by
          simp only [List.filter]
          rw [decide_eq_false (by rw [hlast]; exact fun h => hext h.symm)]
        rw [hfilter0, List.append_nil]
        exact hsz e

theorem scanFold_ext :
    ∀ (ts : List (List String × String × Option Nat)) (acc : ScanAcc),
      ((acc.extCounter.map (fun e => e.2)).sum = acc.fileSizes.length) →
      (∀ e, (alookup acc.extSize e).getD 0 = ((acc.fileSizes.filter
          (fun fs => decide (extKey (fs.2.getLastD "") = e))).map (fun fs => fs.1)).sum) →
      (((ts.foldl fileStep acc).extCounter.map (fun e => e.2)).sum
          = (ts.foldl fileStep acc).fileSizes.length) ∧
      (∀ e, (alookup (ts.foldl fileStep acc).extSize e).getD 0
          = (((ts.foldl fileStep acc).fileSizes.filter
              (fun fs => decide (extKey (fs.2.getLastD "") = e))).map (fun fs => fs.1)).sum) := by
  intro ts
  induction ts with
  | nil => intro acc h1 h2; exact ⟨h1, h2⟩
  | cons t rest ih =>
    intro acc h1 h2
    rw [List.foldl_cons]
    rcases fileStep_ext acc t h1 h2 with ⟨h1', h2'⟩
    exact ih _ h1' h2'

/-- C10: the extension histogram produced by `scan` is consistent with the
flat file list: the per-extension counts sum to the number of collected
file entries, and each extension's recorded byte total equals the sum of
the sizes of the collected files bearing that extension. -/
theorem o3scan_histogram_consistent (rootPath : List String) (d : FSDir) :
    (((o3scan rootPath d).extCounter.map (fun e => e.2)).sum
        = (o3scan rootPath d).fileSizes.length) ∧
    (∀ e, (alookup (o3scan rootPath d).extSize e).getD 0
        = (((o3scan rootPath d).fileSizes.filter
            (fun fs => decide (extKey (fs.2.getLastD "") = e))).map (fun fs => fs.1)).sum) :=
  scanFold_ext (walkFileRecs rootPath d) ⟨[], [], [], []⟩ rfl (fun e => by simp [alookup])

/-! ## Lemmas about duplicate detection -/

theorem alookup_setKey {κ β : Type} [DecidableEq κ] :
    ∀ (l : List (κ × β)) (k x : κ) (v : β),
      alookup (setKey l k v) x = if x = k then some v else alookup l x := by
  intro l
  induction l with
  | nil =>
    intro k x v
    show (if k = x then some v else none) = _
    by_cases hxk : x = k
    · subst hxk
      rw [if_pos rfl, if_pos rfl]
    · rw [if_neg (Ne.symm hxk), if_neg hxk]
      rfl
  | cons e t ih =>
    intro k x v
    obtain ⟨a, y⟩ := e
    by_cases hak : a = k
    · subst hak
      rw [show setKey ((a, y) :: t) a v = (a, v) :: t from by simp [setKey]]
      show (if a = x then some v else alookup t x) = _
      by_cases hxa : x = a
      · subst hxa
        rw [if_pos rfl, if_pos rfl]
      · rw [if_neg (Ne.symm hxa), if_neg hxa]
        rw [show alookup ((a, y) :: t) x = alookup t x from by simp [alookup, Ne.symm hxa]]
    · rw [show setKey ((a, y) :: t) k v = (a, y) :: setKey t k v from by simp [setKey, hak]]
      show (if a = x then some y else alookup (setKey t k v) x) = _
      by_cases hxa : x = a
      · have hxk : ¬ x = k := fun h => hak (by rw [← hxa, h])
        rw [if_pos hxa.symm, if_neg hxk]
        rw [show alookup ((a, y) :: t) x = some y from by simp [alookup, hxa.symm]]
      · rw [if_neg (Ne.symm hxa), ih k x v]
        rw [show alookup ((a, y) :: t) x = alookup t x from by simp [alookup, Ne.symm hxa]]

theorem mem_setKey {κ β : Type} [DecidableEq κ] :
    ∀ (l : List (κ × β)) (k : κ) (v : β) (x : κ × β),
      x ∈ setKey l k v → x = (k, v) ∨ x ∈ l := by
  intro l
  induction l with
  | nil =>
    intro k v x hx
    rw [show setKey ([] : List (κ × β)) k v = [(k, v)] from rfl, List.mem_singleton] at hx
    exact Or.inl hx
  | cons e t ih =>
    intro k v x hx
    obtain ⟨a, y⟩ := e
    by_cases hak : a = k
    · subst hak
      rw [show setKey ((a, y) :: t) a v = (a, v) :: t from by simp [setKey],
        List.mem_cons] at hx
      rcases hx with rfl | hx
      · exact Or.inl rfl
      · exact Or.inr (List.mem_cons_of_mem _ hx)
    · rw [show setKey ((a, y) :: t) k v = (a, y) :: setKey t k v from by simp [setKey, hak],
        List.mem_cons] at hx
      rcases hx with rfl | hx
      · exact Or.inr (List.mem_cons_self _ _)
      · rcases ih k v x hx with h | h
        · exact Or.inl h
        · exact Or.inr (List.mem_cons_of_mem _ h)

theorem alookup_pushBucket {κ β : Type} [DecidableEq κ] :
    ∀ (l : List (κ × List β)) (k x : κ) (v : β),
      alookup (pushBucket l k v) x
        = if x = k then some ((alookup l k).getD [] ++ [v]) else alookup l x := by
  intro l
  induction l with
  | nil =>
    intro k x v
    show (if k = x then some [v] else none) = _
    by_cases hxk : x = k
    · subst hxk
      rw [if_pos rfl, if_pos rfl]
      rfl
    · rw [if_neg (Ne.symm hxk), if_neg hxk]
      rfl
  | cons e t ih =>
    intro k x v
    obtain ⟨a, y⟩ := e
    by_cases hak : a = k
    · subst hak
      rw [show pushBucket ((a, y) :: t) a v = (a, y ++ [v]) :: t from by simp [pushBucket]]
      show (if a = x then some (y ++ [v]) else alookup t x) = _
      by_cases hxa : x = a
      · subst hxa
        rw [if_pos rfl, if_pos rfl]
        rw [show alookup ((x, y) :: t) x = some y from by simp [alookup]]
        rfl
      · rw [if_neg (Ne.symm hxa), if_neg hxa]
        rw [show alookup ((a, y) :: t) x = alookup t x from by simp [alookup, Ne.symm hxa]]
    · rw [show pushBucket ((a, y) :: t) k v = (a, y) :: pushBucket t k v from by
        simp [pushBucket, hak]]
      show (if a = x then some y else alookup (pushBucket t k v) x) = _
      by_cases hxa : x = a
      · have hxk : ¬ x = k := fun h => hak (by rw [← hxa, h])
        rw [if_pos hxa.symm, if_neg hxk]
        rw [show alookup ((a, y) :: t) x = some y from by simp [alookup, hxa.symm]]
      · rw [if_neg (Ne.symm hxa), ih k x v]
        rw [show alookup ((a, y) :: t) k = alookup t k from by simp [alookup, hak]]
        rw [show alookup ((a, y) :: t) x = alookup t x from by simp [alookup, Ne.symm hxa]]

theorem keys_pushBucket {κ β : Type} [DecidableEq κ] :
    ∀ (l : List (κ × List β)) (k : κ) (v : β),
      (pushBucket l k v).map (fun e => e.1)
        = if k ∈ l.map (fun e => e.1) then l.map (fun e => e.1)
          else l.map (fun e => e.1) ++ [k] := by
  intro l
  induction l with
  | nil => intro k v; simp [pushBucket]
  | cons e t ih =>
    intro k v
    obtain ⟨a, y⟩ := e
    by_cases hak : a = k
    · subst hak
      rw [show pushBucket ((a, y) :: t) a v = (a, y ++ [v]) :: t from by simp [pushBucket]]
      simp
    · rw [show pushBucket ((a, y) :: t) k v = (a, y) :: pushBucket t k v from by
        simp [pushBucket, hak]]
      rw [List.map_cons, ih, List.map_cons]
      by_cases hkt : k ∈ t.map (fun e => e.1)
      · rw [if_pos hkt, if_pos (List.mem_cons_of_mem _ hkt)]
      · rw [if_neg hkt, if_neg (by
          rw [List.mem_cons]
          rintro (h | h)
          · exact hak h.symm
          · exact hkt h)]
        rfl

theorem keys_pushBucket_nodup {κ β : Type} [DecidableEq κ]
    {l : List (κ × List β)} (h : (l.map (fun e => e.1)).Nodup) (k : κ) (v : β) :
    ((pushBucket l k v).map (fun e => e.1)).Nodup := by
  rw [keys_pushBucket]
  split
  · exact h
  · rename_i hk
    rw [List.nodup_append]
    exact ⟨h, List.nodup_singleton k, by simpa using hk⟩

theorem alookup_mem {κ β : Type} [DecidableEq κ] :
    ∀ (l : List (κ × β)) (k : κ) (v : β), alookup l k = some v → (k, v) ∈ l := by
  intro l
  induction l with
  | nil => intro k v h; cases h
  | cons e t ih =>
    intro k v h
    obtain ⟨a, y⟩ := e
    rw [show alookup ((a, y) :: t) k = if a = k then some y else alookup t k from rfl] at h
    split at h <;> rename_i hak
    · cases h
      subst hak
      exact List.mem_cons_self _ _
    · exact List.mem_cons_of_mem _ (ih k v h)

theorem mem_alookup {κ β : Type} [DecidableEq κ] :
    ∀ (l : List (κ × β)), ((l.map (fun e => e.1)).Nodup) →
      ∀ (k : κ) (v : β), (k, v) ∈ l → alookup l k = some v := by
  intro l
  induction l with
  | nil => intro _ k v h; cases h
  | cons e t ih =>
    intro hnd k v h
    obtain ⟨a, y⟩ := e
    rw [List.map_cons, List.nodup_cons] at hnd
    rw [List.mem_cons] at h
    show (if a = k then some y else alookup t k) = some v
    rcases h with h | h
    · injection h with h1 h2
      subst h1; subst h2
      rw [if_pos rfl]
    · rw [if_neg (fun hc => hnd.1 (by
        subst hc
        exact List.mem_map.mpr ⟨(a, v), h, rfl⟩))]
      exact ih hnd.2 k v h

theorem two_le_length_of_mem_ne {α : Type} {l : List α} {x y : α}
    (hx : x ∈ l) (hy : y ∈ l) (hne : ¬ x = y) : 2 ≤ l.length := by
  match l with
  | [] => cases hx
  | [a] =>
    rw [List.mem_singleton] at hx hy
    exact absurd (hx.trans hy.symm) hne
  | a :: b :: t => simp

theorem sizeBucketsFold_lookup :
    ∀ (fs : List (Nat × List String)) (init : List (Nat × List (List String))) (s : Nat),
      alookup (fs.foldl (fun acc t => pushBucket acc t.1 t.2) init) s
        = if fs.filter (fun t => decide (t.1 = s)) = [] then alookup init s
          else some ((alookup init s).getD []
            ++ (fs.filter (fun t => decide (t.1 = s))).map (fun t => t.2)) := by
  intro fs
  induction fs with
  | nil => intro init s; simp
  | cons t rest ih =>
    intro init s
    rw [List.foldl_cons, ih]
    by_cases hts : t.1 = s
    · subst hts
      rw [List.filter_cons_of_pos (by simp), if_neg (List.cons_ne_nil _ _), List.map_cons]
      split <;> rename_i hrest
      · rw [alookup_pushBucket, if_pos rfl, hrest, List.map_nil]
      · rw [alookup_pushBucket, if_pos rfl]
        simp
    · rw [List.filter_cons_of_neg (by simpa using hts)]
      rw [alookup_pushBucket, if_neg (show ¬ s = t.1 from fun h => hts h.symm)]

theorem sizeBucketsFold_keys_nodup :
    ∀ (fs : List (Nat × List String)) (init : List (Nat × List (List String))),
      ((init.map (fun e => e.1)).Nodup) →
      (((fs.foldl (fun acc t => pushBucket acc t.1 t.2) init).map (fun e => e.1)).Nodup) := by
  intro fs
  induction fs with
  | nil => intro init h; exact h
  | cons t rest ih =>
    intro init h
    rw [List.foldl_cons]
    exact ih _ (keys_pushBucket_nodup h t.1 t.2)

theorem hashBucketsFold_lookup (hashFn : List Nat → List Nat)
    (readFile : List String → Option (List Nat)) :
    ∀ (ps : List (List String)) (init : List (List Nat × List (List String))) (dg : List Nat),
      alookup (ps.foldl (fun hs p => match readFile p with
          | none => hs
          | some c => pushBucket hs (hashFn c) p) init) dg
        = if ps.filter (fun p => (readFile p).map hashFn = some dg) = [] then alookup init dg
          else some ((alookup init dg).getD []
            ++ ps.filter (fun p => (readFile p).map hashFn = some dg)) := by
  intro ps
  induction ps with
  | nil => intro init dg; simp
  | cons p rest ih =>
    intro init dg
    rw [List.foldl_cons]
    cases hrf : readFile p with
    | none =>
      simp only [hrf]
      rw [ih, List.filter_cons_of_neg (by simp [hrf])]
    | some c =>
      simp only [hrf]
      rw [ih]
      by_cases hdg : hashFn c = dg
      · subst hdg
        rw [List.filter_cons_of_pos (by simp [hrf]), if_neg (List.cons_ne_nil _ _)]
        split <;> rename_i hrest
        · rw [alookup_pushBucket, if_pos rfl, hrest]
        · rw [alookup_pushBucket, if_pos rfl]
          simp
      · rw [List.filter_cons_of_neg (by simp [hrf, hdg])]
        rw [alookup_pushBucket, if_neg (show ¬ dg = hashFn c from fun h => hdg h.symm)]

theorem hashBucketsFold_keys_nodup (hashFn : List Nat → List Nat)
    (readFile : List String → Option (List Nat)) :
    ∀ (ps : List (List String)) (init : List (List Nat × List (List String))),
      ((init.map (fun e => e.1)).Nodup) →
      (((ps.foldl (fun hs p => match readFile p with
          | none => hs
          | some c => pushBucket hs (hashFn c) p) init).map (fun e => e.1)).Nodup) := by
  intro ps
  induction ps with
  | nil => intro init h; exact h
  | cons p rest ih =>
    intro init h
    rw [List.foldl_cons]
    cases hrf : readFile p with
    | none =>
      simp only [hrf]
      exact ih _ h
    | some c =>
      simp only [hrf]
      exact ih _ (keys_pushBucket_nodup h (hashFn c) p)

theorem detect_duplicates_unfold (hashFn : List Nat → List Nat)
    (readFile : List String → Option (List Nat)) (file_sizes : List (Nat × List String)) :
    detect_duplicates hashFn readFile file_sizes
      = (file_sizes.foldl (fun acc t => pushBucket acc t.1 t.2) []).foldl
          (fun dupes bucket =>
            if bucket.2.length < 2 then dupes
            else (hashBuckets hashFn readFile bucket.2).foldl
              (fun d pr => if 1 < pr.2.length then setKey d pr.1 pr.2 else d) dupes) [] := rfl

theorem hashBuckets_unfold (hashFn : List Nat → List Nat)
    (readFile : List String → Option (List Nat)) (ps : List (List String)) :
    hashBuckets hashFn readFile ps
      = ps.foldl (fun hs p => match readFile p with
          | none => hs
          | some c => pushBucket hs (hashFn c) p) [] := rfl

theorem mem_bucketPaths {fs : List (Nat × List String)} {s : Nat} {p : List String} :
    p ∈ (fs.filter (fun t => decide (t.1 = s))).map (fun t => t.2) ↔ (s, p) ∈ fs := by
  rw [List.mem_map]
  constructor
  · rintro ⟨t, ht, rfl⟩
    rcases List.mem_filter.mp ht with ⟨htm, htp⟩
    have hts : t.1 = s := by simpa using htp
    have : t = (s, t.2) := by
      rw [← hts]
    rw [this] at htm
    exact htm
  · intro h
    exact ⟨(s, p), List.mem_filter.mpr ⟨h, by simp⟩, rfl⟩

theorem mem_hashGood {readFile : List String → Option (List Nat)}
    {hashFn : List Nat → List Nat} {ps : List (List String)} {dg : List Nat}
    {p : List String} :
    p ∈ ps.filter (fun p => decide ((readFile p).map hashFn = some dg)) ↔
      p ∈ ps ∧ ∃ c, readFile p = some c ∧ hashFn c = dg := by
  rw [List.mem_filter]
  constructor
  · rintro ⟨hp, hd⟩
    rw [decide_eq_true_eq] at hd
    cases hrf : readFile p with
    | none => rw [hrf] at hd; cases hd
    | some c =>
      rw [hrf] at hd
      refine ⟨hp, c, rfl, ?_⟩
      injection hd
  · rintro ⟨hp, c, hrf, hdg⟩
    refine ⟨hp, ?_⟩
    rw [decide_eq_true_eq, hrf, Option.map_some', hdg]

theorem hashBuckets_mem_spec (hashFn : List Nat → List Nat)
    (readFile : List String → Option (List Nat)) (ps : List (List String))
    {pr : List Nat × List (List String)} (hpr : pr ∈ hashBuckets hashFn readFile ps) :
    pr.2 = ps.filter (fun p => decide ((readFile p).map hashFn = some pr.1)) ∧
      ¬ pr.2 = [] := by
  have hnd : ((hashBuckets hashFn readFile ps).map (fun e => e.1)).Nodup := by
    rw [hashBuckets_unfold]
    exact hashBucketsFold_keys_nodup hashFn readFile ps [] List.nodup_nil
  have hlk : alookup (hashBuckets hashFn readFile ps) pr.1 = some pr.2 := by
    have := mem_alookup (hashBuckets hashFn readFile ps) hnd pr.1 pr.2
    exact this (by rw [show ((pr.1, pr.2) : List Nat × List (List String)) = pr from rfl]; exact hpr)
  rw [hashBuckets_unfold, hashBucketsFold_lookup] at hlk
  split at hlk <;> rename_i hgood
  · cases hlk
  · injection hlk with hlk
    rw [show alookup ([] : List (List Nat × List (List String))) pr.1 = none from rfl] at hlk
    rw [show (Option.getD (none : Option (List (List String))) [] : List (List String)) = []
      from rfl] at hlk
    rw [List.nil_append] at hlk
    exact ⟨hlk.symm, hlk ▸ hgood⟩

theorem sizeBuckets_mem_spec (file_sizes : List (Nat × List String))
    {b : Nat × List (List String)}
    (hb : b ∈ file_sizes.foldl (fun acc t => pushBucket acc t.1 t.2) []) :
    b.2 = (file_sizes.filter (fun t => decide (t.1 = b.1))).map (fun t => t.2) := by
  have hnd : ((file_sizes.foldl (fun acc t => pushBucket acc t.1 t.2) []).map
      (fun e => e.1)).Nodup :=
    sizeBucketsFold_keys_nodup file_sizes [] List.nodup_nil
  have hlk : alookup (file_sizes.foldl (fun acc t => pushBucket acc t.1 t.2) []) b.1
      = some b.2 := by
    have := mem_alookup _ hnd b.1 b.2
    exact this (by rw [show ((b.1, b.2) : Nat × List (List String)) = b from rfl]; exact hb)
  rw [sizeBucketsFold_lookup] at hlk
  split at hlk <;> rename_i hflt
  · cases hlk
  · injection hlk with hlk
    rw [show alookup ([] : List (Nat × List (List String))) b.1 = none from rfl] at hlk
    rw [show (Option.getD (none : Option (List (List String))) [] : List (List String)) = []
      from rfl] at hlk
    rw [List.nil_append] at hlk
    exact hlk.symm

theorem innerFold_mem :
    ∀ (hs : List (List Nat × List (List String))) (dupes : List (List Nat × List (List String)))
      (g : List Nat × List (List String)),
      g ∈ hs.foldl (fun d pr => if 1 < pr.2.length then setKey d pr.1 pr.2 else d) dupes →
      g ∈ dupes ∨ (g ∈ hs ∧ 1 < g.2.length) := by
  intro hs
  induction hs with
  | nil => intro dupes g hg; exact Or.inl hg
  | cons pr rest ih =>
    intro dupes g hg
    rw [List.foldl_cons] at hg
    rcases ih _ g hg with hmem | ⟨hmem, hlen⟩
    · split at hmem <;> rename_i hlen2
      · rcases mem_setKey dupes pr.1 pr.2 g hmem with heq | hmem2
        · refine Or.inr ⟨?_, ?_⟩
          · rw [heq, show ((pr.1, pr.2) : List Nat × List (List String)) = pr from rfl]
            exact List.mem_cons_self _ _
          · rw [heq]
            exact hlen2
        · exact Or.inl hmem2
      · exact Or.inl hmem
    · exact Or.inr ⟨List.mem_cons_of_mem _ hmem, hlen⟩

theorem innerFold_lookup_ne :
    ∀ (hs : List (List Nat × List (List String))) (dupes : List (List Nat × List (List String)))
      (dg : List Nat), (∀ pr ∈ hs, ¬ pr.1 = dg) →
      alookup (hs.foldl (fun d pr => if 1 < pr.2.length then setKey d pr.1 pr.2 else d) dupes) dg
        = alookup dupes dg := by
  intro hs
  induction hs with
  | nil => intro dupes dg _; rfl
  | cons pr rest ih =>
    intro dupes dg hne
    rw [List.foldl_cons, ih _ dg (fun x hx => hne x (List.mem_cons_of_mem _ hx))]
    split
    · rw [alookup_setKey,
        if_neg (fun h => hne pr (List.mem_cons_self _ _) h.symm)]
    · rfl

theorem innerFold_lookup_of_mem :
    ∀ (hs : List (List Nat × List (List String))) (dupes : List (List Nat × List (List String)))
      (dg : List Nat) (paths : List (List String)),
      ((hs.map (fun e => e.1)).Nodup) → (dg, paths) ∈ hs → 1 < paths.length →
      alookup (hs.foldl (fun d pr => if 1 < pr.2.length then setKey d pr.1 pr.2 else d) dupes) dg
        = some paths := by
  intro hs
  induction hs with
  | nil => intro dupes dg paths _ h _; cases h
  | cons pr rest ih =>
    intro dupes dg paths hnd hmem hlen
    rw [List.map_cons, List.nodup_cons] at hnd
    rw [List.mem_cons] at hmem
    rw [List.foldl_cons]
    rcases hmem with heq | hmem
    · have h1 : pr.1 = dg := by rw [← heq]
      have h2 : pr.2 = paths := by rw [← heq]
      rw [innerFold_lookup_ne rest _ dg (fun x hx hxdg => hnd.1 (by
        rw [h1]
        exact List.mem_map.mpr ⟨x, hx, hxdg⟩))]
      rw [if_pos (by rw [h2]; exact hlen), alookup_setKey, if_pos h1.symm, h2]
    · exact ih _ dg paths hnd.2 hmem hlen

theorem outerFold_lookup_preserved (hashFn : List Nat → List Nat)
    (readFile : List String → Option (List Nat)) :
    ∀ (buckets : List (Nat × List (List String)))
      (dupes : List (List Nat × List (List String))) (dg : List Nat)
      (paths : List (List String)),
      alookup dupes dg = some paths →
      (∀ b ∈ buckets, ∀ pr ∈ hashBuckets hashFn readFile b.2, ¬ pr.1 = dg) →
      alookup (buckets.foldl (fun dupes bucket =>
          if bucket.2.length < 2 then dupes
          else (hashBuckets hashFn readFile bucket.2).foldl
            (fun d pr => if 1 < pr.2.length then setKey d pr.1 pr.2 else d) dupes) dupes) dg
        = some paths := by
  intro buckets
  induction buckets with
  | nil => intro dupes dg paths h _; exact h
  | cons b rest ih =>
    intro dupes dg paths h hne
    rw [List.foldl_cons]
    refine ih _ dg paths ?_ (fun x hx => hne x (List.mem_cons_of_mem _ hx))
    split
    · exact h
    · rw [show (hashBuckets hashFn readFile b.2).foldl
          (fun d pr => if 1 < pr.2.length then setKey d pr.1 pr.2 else d) dupes
          = (hashBuckets hashFn readFile b.2).foldl
            (fun d pr => if 1 < pr.2.length then setKey d pr.1 pr.2 else d) dupes from rfl,
        innerFold_lookup_ne _ _ dg (hne b (List.mem_cons_self _ _))]
      exact h

theorem outerFold_sound (hashFn : List Nat → List Nat)
    (readFile : List String → Option (List Nat)) (file_sizes : List (Nat × List String)) :
    ∀ (buckets : List (Nat × List (List String)))
      (dupes : List (List Nat × List (List String))),
      (∀ b ∈ buckets, b.2 = (file_sizes.filter (fun t => decide (t.1 = b.1))).map
        (fun t => t.2)) →
      (∀ g ∈ dupes, ∃ s : Nat,
        g.2 = ((file_sizes.filter (fun t => decide (t.1 = s))).map (fun t => t.2)).filter
          (fun p => decide ((readFile p).map hashFn = some g.1)) ∧ 1 < g.2.length) →
      ∀ g ∈ buckets.foldl (fun dupes bucket =>
          if bucket.2.length < 2 then dupes
          else (hashBuckets hashFn readFile bucket.2).foldl
            (fun d pr => if 1 < pr.2.length then setKey d pr.1 pr.2 else d) dupes) dupes,
        ∃ s : Nat,
          g.2 = ((file_sizes.filter (fun t => decide (t.1 = s))).map (fun t => t.2)).filter
            (fun p => decide ((readFile p).map hashFn = some g.1)) ∧ 1 < g.2.length := by
  intro buckets
  induction buckets with
  | nil => intro dupes _ hdg g hg; exact hdg g hg
  | cons b rest ih =>
    intro dupes hb hdg g hg
    rw [List.foldl_cons] at hg
    refine ih _ (fun x hx => hb x (List.mem_cons_of_mem _ hx)) ?_ g hg
    intro g' hg'
    split at hg'
    · exact hdg g' hg'
    · rcases innerFold_mem _ _ g' hg' with hmem | ⟨hmem, hlen⟩
      · exact hdg g' hmem
      · rcases hashBuckets_mem_spec hashFn readFile b.2 hmem with ⟨hspec, _⟩
        refine ⟨b.1, ?_, hlen⟩
        rw [hspec, hb b (List.mem_cons_self _ _)]

/-- C2: duplicate detection over a static filesystem (readFile is a fixed map, content
length equals the recorded size, paths are unique) never groups files of different
sizes, never groups same-size files with different content, always groups two distinct
readable paths with the same size and content, and every materialized group has at
least 2 members. -/
theorem detect_duplicates_sound (hashFn : List Nat → List Nat)
    (readFile : List String → Option (List Nat)) (file_sizes : List (Nat × List String))
    (hInj : Function.Injective hashFn)
    (hStatic : ∀ t ∈ file_sizes, ∀ c : List Nat, readFile t.2 = some c → c.length = t.1)
    (hNodup : (file_sizes.map (fun t => t.2)).Nodup) :
    (∀ s1 p1 s2 p2, (s1, p1) ∈ file_sizes → (s2, p2) ∈ file_sizes → ¬ s1 = s2 →
      ¬ ∃ g ∈ detect_duplicates hashFn readFile file_sizes, p1 ∈ g.2 ∧ p2 ∈ g.2) ∧
    (∀ s p1 p2 c1 c2, (s, p1) ∈ file_sizes → (s, p2) ∈ file_sizes →
      readFile p1 = some c1 → readFile p2 = some c2 → ¬ c1 = c2 →
      ¬ ∃ g ∈ detect_duplicates hashFn readFile file_sizes, p1 ∈ g.2 ∧ p2 ∈ g.2) ∧
    (∀ s p1 p2 c, (s, p1) ∈ file_sizes → (s, p2) ∈ file_sizes → ¬ p1 = p2 →
      readFile p1 = some c → readFile p2 = some c →
      ∃ g ∈ detect_duplicates hashFn readFile file_sizes, p1 ∈ g.2 ∧ p2 ∈ g.2) ∧
    (∀ g ∈ detect_duplicates hashFn readFile file_sizes, 2 ≤ g.2.length) := by
  have hGood : ∀ g ∈ detect_duplicates hashFn readFile file_sizes, ∃ s : Nat,
      g.2 = ((file_sizes.filter (fun t => decide (t.1 = s))).map (fun t => t.2)).filter
        (fun p => decide ((readFile p).map hashFn = some g.1)) ∧ 1 < g.2.length := by
    intro g hg
    rw [detect_duplicates_unfold] at hg
    refine outerFold_sound hashFn readFile file_sizes _ _ ?_ ?_ g hg
    · intro b hb
      exact sizeBuckets_mem_spec file_sizes hb
    · intro g' hg'
      cases hg'
  have hsizeU : ∀ s1 p s2, (s1, p) ∈ file_sizes → (s2, p) ∈ file_sizes → s1 = s2 := by
    intro s1 p s2 h1 h2
    have h := List.inj_on_of_nodup_map hNodup h1 h2 rfl
    injection h with h1 h2
  refine ⟨?_, ?_, ?_, ?_⟩
  · rintro s1 p1 s2 p2 h1 h2 hne ⟨g, hg, hp1, hp2⟩
    obtain ⟨s, hspec, -⟩ := hGood g hg
    rw [hspec] at hp1 hp2
    obtain ⟨hin1, -⟩ := mem_hashGood.mp hp1
    obtain ⟨hin2, -⟩ := mem_hashGood.mp hp2
    exact hne ((hsizeU s1 p1 s h1 (mem_bucketPaths.mp hin1)).trans
      (hsizeU s2 p2 s h2 (mem_bucketPaths.mp hin2)).symm)
  · rintro s0 p1 p2 c1 c2 h1 h2 hr1 hr2 hne ⟨g, hg, hp1, hp2⟩
    obtain ⟨s, hspec, -⟩ := hGood g hg
    rw [hspec] at hp1 hp2
    obtain ⟨-, d1, hrd1, hh1⟩ := mem_hashGood.mp hp1
    obtain ⟨-, d2, hrd2, hh2⟩ := mem_hashGood.mp hp2
    rw [hr1] at hrd1
    rw [hr2] at hrd2
    refine hne ?_
    rw [Option.some.inj hrd1, Option.some.inj hrd2]
    exact hInj (hh1.trans hh2.symm)
  · intro s p1 p2 c hp hq hpq hrp hrq
    have hpbp : p1 ∈ (file_sizes.filter (fun t => decide (t.1 = s))).map (fun t => t.2) :=
      mem_bucketPaths.mpr hp
    have hqbp : p2 ∈ (file_sizes.filter (fun t => decide (t.1 = s))).map (fun t => t.2) :=
      mem_bucketPaths.mpr hq
    have hfne : ¬ file_sizes.filter (fun t => decide (t.1 = s)) = [] :=
      List.ne_nil_of_mem (List.mem_filter.mpr ⟨hp, by simp⟩)
    have hlk : alookup (file_sizes.foldl (fun acc t => pushBucket acc t.1 t.2) []) s
        = some ((file_sizes.filter (fun t => decide (t.1 = s))).map (fun t => t.2)) := by
      rw [sizeBucketsFold_lookup, if_neg hfne]
      rfl
    have hmem_sb : (s, (file_sizes.filter (fun t => decide (t.1 = s))).map (fun t => t.2))
        ∈ file_sizes.foldl (fun acc t => pushBucket acc t.1 t.2) [] :=
      alookup_mem _ _ _ hlk
    obtain ⟨pre, post, hsplit⟩ := List.append_of_mem hmem_sb
    have hknd : ((file_sizes.foldl (fun acc t => pushBucket acc t.1 t.2) []).map
        (fun e => e.1)).Nodup :=
      sizeBucketsFold_keys_nodup file_sizes [] List.nodup_nil
    rw [hsplit, List.map_append, List.map_cons] at hknd
    have hknd2 := List.Nodup.of_append_right hknd
    rw [List.nodup_cons] at hknd2
    have hsnotpost : s ∉ post.map (fun e => e.1) := hknd2.1
    have hpgood : p1 ∈ ((file_sizes.filter (fun t => decide (t.1 = s))).map
        (fun t => t.2)).filter (fun p => decide ((readFile p).map hashFn = some (hashFn c))) :=
      mem_hashGood.mpr ⟨hpbp, c, hrp, rfl⟩
    have hqgood : p2 ∈ ((file_sizes.filter (fun t => decide (t.1 = s))).map
        (fun t => t.2)).filter (fun p => decide ((readFile p).map hashFn = some (hashFn c))) :=
      mem_hashGood.mpr ⟨hqbp, c, hrq, rfl⟩
    have hglen : 1 < (((file_sizes.filter (fun t => decide (t.1 = s))).map
        (fun t => t.2)).filter
          (fun p => decide ((readFile p).map hashFn = some (hashFn c)))).length :=
      two_le_length_of_mem_ne hpgood hqgood hpq
    have hhnd : ((hashBuckets hashFn readFile ((file_sizes.filter
        (fun t => decide (t.1 = s))).map (fun t => t.2))).map (fun e => e.1)).Nodup := by
      rw [hashBuckets_unfold]
      exact hashBucketsFold_keys_nodup hashFn readFile _ [] List.nodup_nil
    have hhlk : alookup (hashBuckets hashFn readFile ((file_sizes.filter
        (fun t => decide (t.1 = s))).map (fun t => t.2))) (hashFn c)
        = some (((file_sizes.filter (fun t => decide (t.1 = s))).map (fun t => t.2)).filter
          (fun p => decide ((readFile p).map hashFn = some (hashFn c)))) := by
      rw [hashBuckets_unfold, hashBucketsFold_lookup,
        if_neg (List.ne_nil_of_mem hpgood)]
      rfl
    have hhmem : (hashFn c, ((file_sizes.filter (fun t => decide (t.1 = s))).map
        (fun t => t.2)).filter (fun p => decide ((readFile p).map hashFn = some (hashFn c))))
        ∈ hashBuckets hashFn readFile ((file_sizes.filter
          (fun t => decide (t.1 = s))).map (fun t => t.2)) :=
      alookup_mem _ _ _ hhlk
    have hnlt : ¬ ((file_sizes.filter (fun t => decide (t.1 = s))).map
        (fun t => t.2)).length < 2 :=
      Nat.not_lt.mpr (two_le_length_of_mem_ne hpbp hqbp hpq)
    have hpostne : ∀ b ∈ post, ∀ pr ∈ hashBuckets hashFn readFile b.2,
        ¬ pr.1 = hashFn c := by
      intro b hbpost pr hpr hpr1
      have hbsb : b ∈ file_sizes.foldl (fun acc t => pushBucket acc t.1 t.2) [] := by
        rw [hsplit]
        exact List.mem_append_right _ (List.mem_cons_of_mem _ hbpost)
      have hbspec := sizeBuckets_mem_spec file_sizes hbsb
      obtain ⟨hprspec, hprne⟩ := hashBuckets_mem_spec hashFn readFile b.2 hpr
      obtain ⟨pp, hpp⟩ := List.exists_mem_of_ne_nil pr.2 hprne
      rw [hprspec] at hpp
      obtain ⟨hppb, d, hrd, hhd⟩ := mem_hashGood.mp hpp
      have hdc : d = c := hInj (hhd.trans hpr1)
      rw [hbspec] at hppb
      have hbpp : (b.1, pp) ∈ file_sizes := mem_bucketPaths.mp hppb
      have hlen1 : c.length = b.1 := by
        refine hStatic (b.1, pp) hbpp c ?_
        show readFile pp = some c
        rw [hrd, hdc]
      have hlen2 : c.length = s := hStatic (s, p1) hp c hrp
      exact hsnotpost (List.mem_map.mpr ⟨b, hbpost, hlen1 ▸ hlen2⟩)
    have hfinal : alookup (detect_duplicates hashFn readFile file_sizes) (hashFn c)
        = some (((file_sizes.filter (fun t => decide (t.1 = s))).map (fun t => t.2)).filter
          (fun p => decide ((readFile p).map hashFn = some (hashFn c)))) := by
      rw [detect_duplicates_unfold, hsplit, List.foldl_append, List.foldl_cons]
      refine outerFold_lookup_preserved hashFn readFile post _ _ _ ?_ hpostne
      show alookup (if ((file_sizes.filter (fun t => decide (t.1 = s))).map
          (fun t => t.2)).length < 2
        then List.foldl (fun dupes bucket =>
          if bucket.2.length < 2 then dupes
          else (hashBuckets hashFn readFile bucket.2).foldl
            (fun d pr => if 1 < pr.2.length then setKey d pr.1 pr.2 else d) dupes) [] pre
        else (hashBuckets hashFn readFile ((file_sizes.filter
            (fun t => decide (t.1 = s))).map (fun t => t.2))).foldl
          (fun d pr => if 1 < pr.2.length then setKey d pr.1 pr.2 else d)
          (List.foldl (fun dupes bucket =>
            if bucket.2.length < 2 then dupes
            else (hashBuckets hashFn readFile bucket.2).foldl
              (fun d pr => if 1 < pr.2.length then setKey d pr.1 pr.2 else d) dupes) [] pre))
        (hashFn c)
        = some (((file_sizes.filter (fun t => decide (t.1 = s))).map (fun t => t.2)).filter
          (fun p => decide ((readFile p).map hashFn = some (hashFn c))))
      rw [if_neg hnlt]
      exact innerFold_lookup_of_mem _ _ _ _ hhnd hhmem hglen
    exact ⟨(hashFn c, ((file_sizes.filter (fun t => decide (t.1 = s))).map
        (fun t => t.2)).filter (fun p => decide ((readFile p).map hashFn = some (hashFn c)))),
      alookup_mem _ _ _ hfinal, hpgood, hqgood⟩
  · intro g hg
    obtain ⟨s, -, hlen⟩ := hGood g hg
    exact hlen

theorem detect_duplicates_sound_witness :
    Function.Injective (fun c : List Nat => c) ∧
    (∀ t ∈ [((0 : Nat), ["a"])], ∀ c : List Nat,
      (fun _ : List String => (none : Option (List Nat))) t.2 = some c → c.length = t.1) ∧
    (([((0 : Nat), ["a"])].map (fun t => t.2)).Nodup) ∧
    (∀ g ∈ detect_duplicates (fun c => c) (fun _ => none) [((0 : Nat), ["a"])],
      2 ≤ g.2.length) :=
  ⟨fun a b h => h, fun _ _ c hc => Option.noConfusion hc, by decide,
    (detect_duplicates_sound (fun c => c) (fun _ => none) [((0 : Nat), ["a"])]
      (fun a b h => h) (fun _ _ c hc => Option.noConfusion hc) (by decide)).2.2.2⟩
